import Mathlib

/-!
# Bloom filter (`bloom.go`, `strategy.go`)

A shallow embedding of the Bloom filter package: the `Filter` type with its
constructors, `Put`, `MightContain` and the JSON round trip (`bloom.go`), and the
`MURMUR128MITZ64` index strategy (`strategy.go`).

Conventions of the embedding.

* Go's `uint` and `uint64` are natural numbers below `2 ^ 64`; every operation that can
  wrap is written with an explicit `% 2 ^ 64`. Go's `int64` is an integer in
  `[-2 ^ 63, 2 ^ 63)`.
* A byte slice is a `List Nat` (each entry a byte), a `[]uint64` is a `List Nat`.
* A call that can panic (index out of range, integer division by zero) returns `Option`,
  with `none` for the panic.
* The two libraries the package imports, `github.com/willf/bitset` and
  `github.com/spaolacci/murmur3`, are embedded as far as the package calls them
  (namespaces `BitSet` and `Murmur3`).
* `make` panics on a size above `maxAlloc`: this is the panic of `make([]uint, k)` in
  `Indexes` and the failed allocation from which `bitset.New` recovers. An allocation
  within `maxAlloc`, and the growth of a bit set in `Set`, are taken to succeed and to
  deliver zeroed words.
* A `float64` is a value of `F64`: every arithmetic operation is the exact result rounded
  to the nearest `float64`, ties to even, and `math.Log`, `math.Pow`, `math.Floor` and
  `math.Max` follow the portable code of the Go library. The conversion `uint(x)` of a
  value out of range is the one of the amd64 compiler.
* `json.Marshal` and `json.Unmarshal` are parameters of the two JSON methods.
-/

namespace Bloom

/-! ## Machine integers -/

/-- Number of values of a Go `uint` / `uint64` on a 64-bit platform. -/
def uintSize : Nat := 2 ^ 64

/-- Conversion `int64(x)` of an unsigned 64-bit value: the same bit pattern read in
two's complement. -/
def toInt64 (x : Nat) : Int :=
  if x < 2 ^ 63 then (x : Int) else (x : Int) - 2 ^ 64

/-- Conversion `uint(z)` / `uint64(z)` of a signed 64-bit value: the same bit pattern read
as unsigned. -/
def toUint64 (z : Int) : Nat :=
  (z % 2 ^ 64).toNat

/-! ## Allocation -/

/-- Runtime constant `maxAlloc` on linux/amd64 (48 address bits): the largest size, in
bytes, that `make` accepts. -/
def maxAlloc : Nat := 2 ^ 48

/-- Whether `make([]T, n)`, for an element type of `size` bytes, returns: it panics
(`makeslice: len out of range`) when `n * size` exceeds `maxAlloc`. -/
def MakeReturns (n size : Nat) : Prop := n * size ≤ maxAlloc

instance (n size : Nat) : Decidable (MakeReturns n size) :=
  inferInstanceAs (Decidable (n * size ≤ maxAlloc))

/-! ## The bit set library (`github.com/willf/bitset`) -/

/-- Go `bitset.BitSet`: the number of bits in use and the backing words. -/
structure BitSet where
  length : Nat
  set : List Nat
deriving DecidableEq

namespace BitSet

/-- Constant `wordSize` of the library. -/
def wordSize : Nat := 64

/-- Constant `log2WordSize` of the library. -/
def log2WordSize : Nat := 6

/-- Function `Cap()`: the largest `uint`. -/
def Cap : Nat := uintSize - 1

/-- Function `wordsNeeded(i)`: the number of words that hold `i` bits. -/
def wordsNeeded (i : Nat) : Nat :=
  if i > Cap - wordSize + 1 then Cap >>> log2WordSize
  else ((i + (wordSize - 1)) % uintSize) >>> log2WordSize

/-- Function `bitset.New(length)`: `length` bits, all clear, in
`make([]uint64, wordsNeeded(length))`. When that `make` panics the function recovers and
returns the empty bit set `BitSet{0, make([]uint64, 0)}`. -/
def New (length : Nat) : BitSet :=
  if MakeReturns (wordsNeeded length) 8 then ⟨length, List.replicate (wordsNeeded length) 0⟩
  else ⟨0, []⟩

/-- Function `bitset.From(buf)`: the words of `buf`, with length `uint(len(buf)) * 64`. -/
def From (buf : List Nat) : BitSet :=
  ⟨(buf.length * 64) % uintSize, buf⟩

/-- Method `Bytes()`: the backing words. -/
def Bytes (b : BitSet) : List Nat := b.set

/-- The backing slice brought to `nsize` words: re-sliced when it is long enough,
extended by zero words otherwise. -/
def resize (set : List Nat) (nsize : Nat) : List Nat :=
  (set ++ List.replicate (nsize - set.length) 0).take nsize

/-- Method `extendSetMaybe(i)`: when `i` is at or beyond the length, the set is resized to
hold bit `i` and the length becomes `i + 1`. -/
def extendSetMaybe (b : BitSet) (i : Nat) : BitSet :=
  if i ≥ b.length then
    let nsize := wordsNeeded ((i + 1) % uintSize)
    ⟨(i + 1) % uintSize, resize b.set nsize⟩
  else b

/-- Method `Set(i)`: extend the set if needed, then
`b.set[i>>log2WordSize] |= 1 << (i & (wordSize - 1))`; `none` when that index is out of
range. -/
def Set (b : BitSet) (i : Nat) : Option BitSet :=
  let b1 := extendSetMaybe b i
  match b1.set[i >>> log2WordSize]? with
  | none => none
  | some w => some ⟨b1.length, b1.set.set (i >>> log2WordSize) (w ||| (1 <<< (i &&& (wordSize - 1))))⟩

/-- Method `Test(i)`: `false` at or beyond the length, else whether
`b.set[i>>log2WordSize] & (1 << (i & (wordSize - 1)))` is non-zero; `none` when that index
is out of range. -/
def Test (b : BitSet) (i : Nat) : Option Bool :=
  if i ≥ b.length then some false
  else
    match b.set[i >>> log2WordSize]? with
    | none => none
    | some w => some (w &&& (1 <<< (i &&& (wordSize - 1))) != 0)

/-- The backing words cover the length: bit `i < length` lives in an existing word. Every
bit set made by `New` or `From` and changed by `Set` only is in this state. -/
def Covered (b : BitSet) : Prop := b.length ≤ 64 * b.set.length

instance (b : BitSet) : Decidable b.Covered := by unfold Covered; infer_instance

/-- Every bit at or beyond the length is clear in the backing words. -/
def ClearBeyond (b : BitSet) : Prop :=
  ∀ j, b.length ≤ j → ∀ w, b.set[j / 64]? = some w → w.testBit (j % 64) = false

/-- The backing words are exactly those the length needs, and no bit is set at or beyond
the length: the state of a bit set made by `New` and changed by `Set` below its word
capacity. -/
def Tight (b : BitSet) : Prop :=
  b.length ≤ 64 * b.set.length ∧ 64 * b.set.length < b.length + 64 ∧ b.ClearBeyond

/-- Bit `r` of word `q` of the backing words; clear where there is no word `q`. -/
def wordBit (b : BitSet) (q r : Nat) : Bool := (b.set.getD q 0).testBit r

end BitSet

/-! ## Index strategies (`strategy.go`) -/

/-- Go interface `Strategy`: one method `Indexes(data, m, k)`; `none` when the call
panics. -/
structure Strategy where
  Indexes : List Nat → Nat → Nat → Option (List Nat)

/-! ## The hash library (`github.com/spaolacci/murmur3`, 128-bit variant) -/

namespace Murmur3

/-- Constant `c1_128`. -/
def c1_128 : Nat := 0x87c37b91114253d5

/-- Constant `c2_128`. -/
def c2_128 : Nat := 0x4cf5ad432745937f

/-- Function `bits.RotateLeft64(x, r)` for `0 < r < 64`. -/
def rotl64 (x r : Nat) : Nat :=
  ((x <<< r) % uintSize) ||| (x >>> (64 - r))

/-- Product of two `uint64`, wrapping. -/
def mul64 (x y : Nat) : Nat := (x * y) % uintSize

/-- Sum of two `uint64`, wrapping. -/
def add64 (x y : Nat) : Nat := (x + y) % uintSize

/-- The little-endian `uint64` read from (up to) eight bytes. -/
def le64 (bs : List Nat) : Nat :=
  bs.foldr (fun b acc => b + 256 * acc) 0

/-- The block loop of `bmix`: `nblocks` blocks of sixteen bytes are mixed into
`(h1, h2)`. -/
def bmixLoop : Nat → Nat → Nat → List Nat → Nat × Nat
  | 0, h1, h2, _ => (h1, h2)
  | n + 1, h1, h2, p =>
    let k1 := le64 (p.take 8)
    let k2 := le64 ((p.drop 8).take 8)
    let k1 := mul64 k1 c1_128
    let k1 := rotl64 k1 31
    let k1 := mul64 k1 c2_128
    let h1 := h1 ^^^ k1
    let h1 := rotl64 h1 27
    let h1 := add64 h1 h2
    let h1 := add64 (mul64 h1 5) 0x52dce729
    let k2 := mul64 k2 c2_128
    let k2 := rotl64 k2 33
    let k2 := mul64 k2 c1_128
    let h2 := h2 ^^^ k2
    let h2 := rotl64 h2 31
    let h2 := add64 h2 h1
    let h2 := add64 (mul64 h2 5) 0x38495ab5
    bmixLoop n h1 h2 (p.drop 16)

/-- Function `fmix64`. -/
def fmix64 (k : Nat) : Nat :=
  let k := k ^^^ (k >>> 33)
  let k := mul64 k 0xff51afd7ed558ccd
  let k := k ^^^ (k >>> 33)
  let k := mul64 k 0xc4ceb9fe1a85ec53
  let k := k ^^^ (k >>> 33)
  k

/-- The fall-through `switch` of `Sum128` for one of the two tail words: the bytes
`tail[base] .. tail[base+7]` that exist are xor-ed in, byte `base + j` shifted left by
`8 * j`. -/
def tailWord (tail : List Nat) (base : Nat) : Nat :=
  (List.range 8).foldl
    (fun k j => if base + j < tail.length then k ^^^ (tail.getD (base + j) 0 <<< (8 * j)) else k) 0

/-- Method `Sum128` of the digest, given the state after `bmix`, the tail and the total
length `clen`. -/
def finish (h1 h2 : Nat) (tail : List Nat) (clen : Nat) : Nat × Nat :=
  let h2 :=
    if 9 ≤ tail.length then
      let k2 := tailWord tail 8
      let k2 := mul64 k2 c2_128
      let k2 := rotl64 k2 33
      let k2 := mul64 k2 c1_128
      h2 ^^^ k2
    else h2
  let h1 :=
    if 1 ≤ tail.length then
      let k1 := tailWord tail 0
      let k1 := mul64 k1 c1_128
      let k1 := rotl64 k1 31
      let k1 := mul64 k1 c2_128
      h1 ^^^ k1
    else h1
  let h1 := h1 ^^^ (clen % uintSize)
  let h2 := h2 ^^^ (clen % uintSize)
  let h1 := add64 h1 h2
  let h2 := add64 h2 h1
  let h1 := fmix64 h1
  let h2 := fmix64 h2
  let h1 := add64 h1 h2
  let h2 := add64 h2 h1
  (h1, h2)

/-- Function `murmur3.Sum128(data)`: seed zero, all whole blocks mixed, then the tail. -/
def Sum128 (data : List Nat) : Nat × Nat :=
  let nblocks := data.length / 16
  let h := bmixLoop nblocks 0 0 data
  finish h.1 h.2 (data.drop (nblocks * 16)) data.length

end Murmur3

/-! ## The default strategy (`strategy.go`) -/

/-- The sign-bit mask `int64(0x7fffffffffffffff)`. -/
def signMask : Nat := 0x7fffffffffffffff

/-- Sum of two `int64`, wrapping. -/
def addInt64 (x y : Int) : Int := toInt64 (toUint64 (x + y))

/-- Expression `combined & int64(0x7fffffffffffffff)`: the mask applied to the bit
pattern of `combined`. -/
def maskInt64 (combined : Int) : Int := toInt64 (toUint64 combined &&& signMask)

/-- The loop of `MURMUR128MITZ64.Indexes`, `n` iterations from the current `combined`:
each writes `uint((combined & mask) % int64(m))` and adds `int64(h2)`. The remainder is
Go's truncated one, and it panics when `int64(m)` is zero. -/
def indexesLoop (m h2 : Nat) : Nat → Int → Option (List Nat)
  | 0, _ => some []
  | n + 1, combined =>
    if toInt64 m = 0 then none
    else
      match indexesLoop m h2 n (addInt64 combined (toInt64 h2)) with
      | none => none
      | some rest => some (toUint64 (Int.tmod (maskInt64 combined) (toInt64 m)) :: rest)

/-- Method `(*MURMUR128MITZ64).Indexes(data, m, k)`: `make([]uint, k)`, which panics for
a `k` too large, then the hash and the loop. -/
def MURMUR128MITZ64.Indexes (data : List Nat) (m k : Nat) : Option (List Nat) :=
  if MakeReturns k 8 then
    let h := Murmur3.Sum128 data
    indexesLoop m h.2 k (toInt64 h.1)
  else none

/-- The strategy value `&MURMUR128MITZ64{}`. -/
def MURMUR128MITZ64 : Strategy := ⟨MURMUR128MITZ64.Indexes⟩

/-! ## Floating point (`float64` and the `math` package) -/

/-- A `float64` value: a signed multiple `mant * 2 ^ exp` of a power of two (zero is
`mant = 0`, with its sign), an infinity, or a NaN. -/
inductive F64 where
  | finite (neg : Bool) (mant : Nat) (exp : Int)
  | inf (neg : Bool)
  | nan
deriving DecidableEq

namespace F64

/-- Loop of `log2` on a budget of steps. -/
def log2Loop : Nat → Nat → Nat
  | 0, _ => 0
  | fuel + 1, n => if n < 2 then 0 else log2Loop fuel (n / 2) + 1

/-- Position of the highest set bit of `n > 0`. -/
def log2 (n : Nat) : Nat := log2Loop n n

/-- Rounding of the exact value `num / den` (with `den > 0`) to the nearest `float64`, ties
to even: 53 significant bits, least exponent `-1074`, infinity from `2 ^ 1024` on. -/
def round (neg : Bool) (num den : Nat) : F64 :=
  if num = 0 then finite neg 0 (-1074)
  else
    let e0 : Int := (log2 num : Int) - (log2 den : Int)
    let e : Int := if num * 2 ^ (-e0).toNat ≥ den * 2 ^ e0.toNat then e0 else e0 - 1
    let qe : Int := if e - 52 ≥ -1074 then e - 52 else -1074
    let n1 := num * 2 ^ (-qe).toNat
    let d1 := den * 2 ^ qe.toNat
    let q := n1 / d1
    let r := n1 % d1
    let mant := if 2 * r < d1 then q else if 2 * r > d1 then q + 1 else if q % 2 = 0 then q else q + 1
    let mant1 := if mant = 2 ^ 53 then 2 ^ 52 else mant
    let qe1 := if mant = 2 ^ 53 then qe + 1 else qe
    if qe1 > 971 then inf neg else finite neg mant1 qe1

/-- Numerator of the magnitude of a finite value over `den`. -/
def num (mant : Nat) (exp : Int) : Nat := mant * 2 ^ exp.toNat

/-- Denominator of the magnitude of a finite value. -/
def den (exp : Int) : Nat := 2 ^ (-exp).toNat

/-- Conversion `float64(n)` of a `uint`. -/
def ofUint (n : Nat) : F64 := round false n 1

/-- The `float64` of a decimal constant `a / b`. -/
def ofRatio (a b : Nat) : F64 := round false a b

/-- Unary minus. -/
def neg : F64 → F64
  | finite s m e => finite (!s) m e
  | inf s => inf (!s)
  | nan => nan

/-- Product `x * y`. -/
def mul : F64 → F64 → F64
  | finite s m e, finite t n f => round (s != t) (num m e * num n f) (den e * den f)
  | finite s m _, inf t => if m = 0 then nan else inf (s != t)
  | inf s, finite t n _ => if n = 0 then nan else inf (s != t)
  | inf s, inf t => inf (s != t)
  | _, _ => nan

/-- Quotient `x / y`. -/
def div : F64 → F64 → F64
  | finite s m e, finite t n f =>
    if n = 0 then (if m = 0 then nan else inf (s != t))
    else round (s != t) (num m e * den f) (den e * num n f)
  | finite s _ _, inf t => finite (s != t) 0 (-1074)
  | inf s, finite t _ _ => inf (s != t)
  | _, _ => nan

/-- The exact value of a finite `float64` times `2 ^ 1074`, an integer. -/
def scaled (s : Bool) (m : Nat) (e : Int) : Int :=
  let v : Int := (m * 2 ^ (e + 1074).toNat : Nat)
  if s then -v else v

/-- Sum `x + y`. -/
def add : F64 → F64 → F64
  | finite s m e, finite t n f =>
    let z := scaled s m e + scaled t n f
    if z = 0 then finite (s && t) 0 (-1074)
    else round (decide (z < 0)) z.natAbs (2 ^ 1074)
  | finite _ _ _, inf t => inf t
  | inf s, finite _ _ _ => inf s
  | inf s, inf t => if s = t then inf s else nan
  | _, _ => nan

/-- Difference `x - y`. -/
def sub (x y : F64) : F64 := add x (neg y)

/-- Comparison `x < y`. -/
def lt : F64 → F64 → Bool
  | finite s m e, finite t n f => decide (scaled s m e < scaled t n f)
  | finite _ _ _, inf t => !t
  | inf s, finite _ _ _ => s
  | inf s, inf t => s && !t
  | _, _ => false

/-- Comparison `x == y`. -/
def eq : F64 → F64 → Bool
  | finite s m e, finite t n f => decide (scaled s m e = scaled t n f)
  | inf s, inf t => s == t
  | _, _ => false

/-- Function `math.Floor(x)`. -/
def Floor : F64 → F64
  | finite s m e =>
    if m = 0 then finite s m e
    else
      let z : Int := scaled s m e / ((2 ^ 1074 : Nat) : Int)
      if z = 0 then finite false 0 (-1074) else round (decide (z < 0)) z.natAbs 1
  | x => x

/-- Function `math.Max(x, y)`. -/
def Max (x y : F64) : F64 :=
  if x = inf false ∨ y = inf false then inf false
  else if x = nan ∨ y = nan then nan
  else if eq x (finite false 0 (-1074)) && eq x y then
    (match x with
     | finite true _ _ => y
     | _ => x)
  else if lt y x then x else y

/-- Instruction `CVTTSD2SQ`: the integer part of `x` as an `int64`, and the bit pattern
`0x8000000000000000` for a NaN or a value out of range. -/
def cvt : F64 → Int
  | finite s m e =>
    let z : Int := Int.tdiv (scaled s m e) ((2 ^ 1074 : Nat) : Int)
    if -(2 ^ 63) ≤ z ∧ z < 2 ^ 63 then z else -(2 ^ 63)
  | _ => -(2 ^ 63)

/-- Conversion `uint(x)`. Go leaves the result of an out-of-range conversion to the
implementation; this is the code of the amd64 compiler: below `2 ^ 63` the signed
conversion, otherwise the signed conversion of `x - 2 ^ 63` with the top bit set. -/
def toUint (x : F64) : Nat :=
  if lt x (finite false (2 ^ 52) 11) then ((cvt x) % 2 ^ 64).toNat
  else ((cvt (sub x (finite false (2 ^ 52) 11))) % 2 ^ 64).toNat ||| 2 ^ 63

/-- Function `math.Frexp(x)` for a finite non-zero `x`: the fraction in `[1/2, 1)` and the
exponent. -/
def Frexp : F64 → F64 × Int
  | finite s m e =>
    if m = 0 then (finite s m e, 0)
    else
      let b := log2 m
      (finite s (m * 2 ^ (52 - b)) (-53), e + b + 1)
  | x => (x, 0)

/-- Conversion `float64(i)` of an `int`. -/
def ofInt (z : Int) : F64 :=
  if z = 0 then finite false 0 (-1074) else round (decide (z < 0)) z.natAbs 1

/-- The literal `1`. -/
def one : F64 := ofUint 1

/-- The literal `2`. -/
def two : F64 := ofUint 2

/-- The literal `0.5`. -/
def half : F64 := ofRatio 1 2

/-- Function `math.Log(x)`, the portable implementation of the Go library
(`math/log.go`). The amd64 assembly of the library agrees with it on normal arguments and
on the special cases, and may differ on subnormal ones; no property below depends on the
value of `math.Log` at a subnormal argument. -/
def Log (x : F64) : F64 :=
  let Ln2Hi := ofRatio 693147180369123816490 (10 ^ 21)
  let Ln2Lo := ofRatio 190821492927058770002 (10 ^ 30)
  let L1 := ofRatio 6666666666666735130 (10 ^ 19)
  let L2 := ofRatio 3999999999940941908 (10 ^ 19)
  let L3 := ofRatio 2857142874366239149 (10 ^ 19)
  let L4 := ofRatio 2222219843214978396 (10 ^ 19)
  let L5 := ofRatio 1818357216161805012 (10 ^ 19)
  let L6 := ofRatio 1531383769920937332 (10 ^ 19)
  let L7 := ofRatio 1479819860511658591 (10 ^ 19)
  let Sqrt2Half := ofRatio 141421356237309504880168872420969807856967187537694807317667974 (2 * 10 ^ 62)
  if x = nan ∨ x = inf false then x
  else if lt x (finite false 0 (-1074)) then nan
  else if eq x (finite false 0 (-1074)) then inf true
  else
    let fr := Frexp x
    let f1 := if lt fr.1 Sqrt2Half then mul fr.1 two else fr.1
    let ki := if lt fr.1 Sqrt2Half then fr.2 - 1 else fr.2
    let f := sub f1 one
    let k := ofInt ki
    let s := div f (add two f)
    let s2 := mul s s
    let s4 := mul s2 s2
    let t1 := mul s2 (add L1 (mul s4 (add L3 (mul s4 (add L5 (mul s4 L7))))))
    let t2 := mul s4 (add L2 (mul s4 (add L4 (mul s4 L6))))
    let R := add t1 t2
    let hfsq := mul (mul half f) f
    sub (mul k Ln2Hi) (sub (sub hfsq (add (mul s (add hfsq R)) (mul k Ln2Lo))) f)

/-- Function `math.Ldexp(frac, exp)`: `frac * 2 ^ exp`, rounded. -/
def Ldexp : F64 → Int → F64
  | finite s m e, x => round s (m * 2 ^ (e + x).toNat) (2 ^ (-(e + x)).toNat)
  | y, _ => y

/-- The loop `for i := int64(yi); i != 0; i >>= 1` of `math.Pow`, which multiplies
`x ** yi` into `a1 * 2 ** ae`, where `x1 * 2 ** xe` is the current power of `x`. -/
def powLoop : Nat → Nat → F64 → Int → F64 → Int → F64 × Int
  | 0, _, a1, ae, _, _ => (a1, ae)
  | fuel + 1, i, a1, ae, x1, xe =>
    if i = 0 then (a1, ae)
    else if xe < -(2 ^ 12) ∨ 2 ^ 12 < xe then (a1, ae + xe)
    else
      let a1 := if i % 2 = 1 then mul a1 x1 else a1
      let ae := if i % 2 = 1 then ae + xe else ae
      let x1 := mul x1 x1
      let xe := 2 * xe
      if lt x1 half then powLoop fuel (i / 2) a1 ae (add x1 x1) (xe - 1)
      else powLoop fuel (i / 2) a1 ae x1 xe

/-- Function `math.Pow(x, y)` for a finite positive `x` and a whole number
`y = yi < 2 ^ 63`: after the special cases `y == 0 || x == 1` and `y == 1`, the power
`x ** yi` is multiplied into `a1 * 2 ** ae` and `Ldexp(a1, ae)` is returned. -/
def PowNat (x : F64) (yi : Nat) : F64 :=
  if yi = 0 ∨ eq x one then one
  else if yi = 1 then x
  else
    let fr := Frexp x
    let r := powLoop 64 yi one 0 fr.1 fr.2
    Ldexp r.1 r.2

end F64

/-! ## The filter (`bloom.go`) -/

/-- Go struct `Filter`. -/
structure Filter where
  m : Nat
  k : Nat
  bits : BitSet
  s : Strategy

/-- Go struct `FilterJSON`. -/
structure FilterJSON where
  M : Nat
  K : Nat
  B : List Nat
deriving DecidableEq

/-- Function `pad(m)`. -/
def pad (m : Nat) : Nat :=
  let r := m % 64
  let d := m / 64
  if r = 0 then m else (64 * (d + 1)) % uintSize

/-- Function `max(x, y)` on `uint`. -/
def max (x y : Nat) : Nat :=
  if x > y then x else y

/-- Constant `defaultFPP = 1.e-5`. -/
def defaultFPP : F64 := F64.ofRatio 1 100000

/-- Function `EstimateParameters(n, p)`: the pair `(m, k)`. -/
def EstimateParameters (n : Nat) (p : F64) : Nat × Nat :=
  let n := max n 1
  let m := F64.toUint (F64.div (F64.mul (F64.mul (F64.neg F64.one) (F64.ofUint n)) (F64.Log p))
    (F64.PowNat (F64.Log F64.two) 2))
  let k := F64.toUint (F64.Max (F64.ofUint 1)
    (F64.Floor (F64.add F64.half
      (F64.mul (F64.div (F64.ofUint m) (F64.ofUint n)) (F64.Log F64.two)))))
  (m, k)

/-- The `float64` value that `EstimateParameters(n, p)` converts to `m`:
`-1 * float64(n) * math.Log(p) / math.Pow(math.Log(2), 2)`, with `n` clamped. -/
def estimateQuotient (n : Nat) (p : F64) : F64 :=
  F64.div (F64.mul (F64.mul (F64.neg F64.one) (F64.ofUint (max n 1))) (F64.Log p))
    (F64.PowNat (F64.Log F64.two) 2)

/-- Function `NewWithStrategy(n, p, s)`. -/
def NewWithStrategy (n : Nat) (p : F64) (s : Strategy) : Filter :=
  let mk := EstimateParameters n p
  ⟨pad mk.1, mk.2, BitSet.New mk.1, s⟩

/-- Function `NewWithFPP(n, p)`. -/
def NewWithFPP (n : Nat) (p : F64) : Filter :=
  let mk := EstimateParameters n p
  ⟨pad mk.1, mk.2, BitSet.New mk.1, MURMUR128MITZ64⟩

/-- Function `New(n)`. -/
def New (n : Nat) : Filter :=
  let mk := EstimateParameters n defaultFPP
  ⟨pad mk.1, mk.2, BitSet.New mk.1, MURMUR128MITZ64⟩

/-- Function `From(bits, k)`; `m` is `uint(len(bits) * 64)`. -/
def From (bits : List Nat) (k : Nat) : Filter :=
  let m := (bits.length * 64) % uintSize
  ⟨m, k, BitSet.From bits, MURMUR128MITZ64⟩

/-- Function `FromWithStrategy(bits, k, s)`. -/
def FromWithStrategy (bits : List Nat) (k : Nat) (s : Strategy) : Filter :=
  let m := (bits.length * 64) % uintSize
  ⟨m, k, BitSet.From bits, s⟩

namespace Filter

/-- Method `M()`. -/
def M (f : Filter) : Nat := f.m

/-- Method `K()`. -/
def K (f : Filter) : Nat := f.k

/-- Method `B()`. -/
def B (f : Filter) : List Nat := f.bits.Bytes

/-- The loop of `Put`: `Set` for every index in turn. -/
def setAll : BitSet → List Nat → Option BitSet
  | b, [] => some b
  | b, index :: rest =>
    match b.Set index with
    | none => none
    | some b1 => setAll b1 rest

/-- Method `Put(data)` on the filter its receiver points to: the filter after the call;
`none` when the call panics. -/
def Put (f : Filter) (data : List Nat) : Option Filter :=
  match f.s.Indexes data f.m f.k with
  | none => none
  | some indexes =>
    match setAll f.bits indexes with
    | none => none
    | some b => some { f with bits := b }

/-- The loop of `MightContain`: `false` at the first index whose bit is not set. -/
def testAll (b : BitSet) : List Nat → Option Bool
  | [] => some true
  | index :: rest =>
    match b.Test index with
    | none => none
    | some false => some false
    | some true => testAll b rest

/-- Method `MightContain(data)`; `none` when the call panics. -/
def MightContain (f : Filter) (data : List Nat) : Option Bool :=
  match f.s.Indexes data f.m f.k with
  | none => none
  | some indexes => testAll f.bits indexes

/-- Method `SetStrategy(s)`. -/
def SetStrategy (f : Filter) (s : Strategy) : Filter :=
  { f with s := s }

/-- Method `MarshalJSON()`, with `json.Marshal` on `FilterJSON` as `marshal`. -/
def MarshalJSON {β : Type} (marshal : FilterJSON → β) (f : Filter) : β :=
  marshal ⟨f.m, f.k, f.bits.Bytes⟩

/-- Method `UnmarshalJSON(data)`, with `json.Unmarshal` into a `FilterJSON` as `unmarshal`:
the receiver after the call and the error returned (`none` for `nil`). -/
def UnmarshalJSON {ε : Type} (unmarshal : List Nat → Except ε FilterJSON) (f : Filter)
    (data : List Nat) : Filter × Option ε :=
  match unmarshal data with
  | Except.error err => (f, some err)
  | Except.ok fJSON =>
    ({ m := fJSON.M, k := fJSON.K, bits := BitSet.From fJSON.B, s := MURMUR128MITZ64 }, none)

/-- A sequence of `Put` calls, one per element of `ds`, in order. -/
def putAll : Filter → List (List Nat) → Option Filter
  | f, [] => some f
  | f, d :: ds =>
    match f.Put d with
    | none => none
    | some f1 => putAll f1 ds

/-- The strategy of `f` is well behaved on the parameters of `f`: for every input it
returns, and every index it returns is below `m`. -/
def StrategyBelow (f : Filter) : Prop :=
  ∀ d, ∃ indexes, f.s.Indexes d f.m f.k = some indexes ∧ ∀ i ∈ indexes, i < f.m

/-- The state of a filter made by `New`, `NewWithFPP` or `NewWithStrategy` with `m > 0`
and changed by `Put` only: `m` is the bit capacity of the backing words and the bit set is
tight. -/
def Padded (f : Filter) : Prop :=
  f.m = 64 * f.bits.set.length ∧ f.m ≤ uintSize - 64 ∧ 0 < f.m ∧ f.bits.Tight

/-- The state of a filter made by any constructor and changed by `Put` only: `m` is the
bit capacity of the backing words and the bit set is tight. -/
def Aligned (f : Filter) : Prop :=
  f.m = 64 * f.bits.set.length ∧ f.m ≤ uintSize - 64 ∧ f.bits.Tight

end Filter

/-- The bytes of the string `"this_is_a_test_string"` of the tests. -/
def testString : List Nat := "this_is_a_test_string".toList.map Char.toNat

end Bloom

/-! # Properties -/

/-! ## The bit set -/

namespace Bloom
namespace BitSet

theorem and_bit_ne_zero (w j : Nat) : (w &&& (1 <<< j) != 0) = w.testBit j := by
  rw [Nat.one_shiftLeft, Nat.and_two_pow]
  cases h : w.testBit j <;> simp

theorem shift_eq_div (i : Nat) : i >>> log2WordSize = i / 64 := by
  simp [log2WordSize, Nat.shiftRight_eq_div_pow]

theorem and_eq_mod (i : Nat) : i &&& (wordSize - 1) = i % 64 := by
  have h := Nat.and_pow_two_sub_one_eq_mod i 6
  simpa [wordSize] using h

theorem wordsNeeded_eq {i : Nat} (h : i ≤ uintSize - 64) : wordsNeeded i = (i + 63) / 64 := by
  unfold wordsNeeded Cap wordSize log2WordSize uintSize at *
  rw [if_neg (by omega), Nat.shiftRight_eq_div_pow, Nat.mod_eq_of_lt (by omega)]

/-- Reading of `Test` through `Nat.testBit`. -/
theorem Test_eq (b : BitSet) (i : Nat) :
    b.Test i = if i ≥ b.length then some false
      else (b.set[i / 64]?).map (fun w => w.testBit (i % 64)) := by
  unfold Test
  rw [shift_eq_div, and_eq_mod]
  split
  · rfl
  · cases h : b.set[i / 64]? <;> simp [and_bit_ne_zero]

end BitSet
end Bloom

/-! ## Insertion and query -/

namespace Bloom
namespace Filter

end Filter
end Bloom

/-! ## The default strategy -/

namespace Bloom

theorem toUint64_natCast {x : Nat} (h : x < 2 ^ 64) : toUint64 (x : Int) = x := by
  unfold toUint64
  have : ((x : Int) % 2 ^ 64) = (x : Int) := Int.emod_eq_of_lt (by positivity) (by exact_mod_cast h)
  rw [this]
  simp

theorem toInt64_ne_zero {m : Nat} (h0 : 0 < m) (h : m < uintSize) : toInt64 m ≠ 0 := by
  unfold toInt64 uintSize at *
  split <;> omega

theorem maskInt64_lt (c : Int) : (toUint64 c &&& signMask) < 2 ^ 63 :=
  lt_of_le_of_lt Nat.and_le_right (by decide)

/-- The masked accumulator is the integer of its low 63 bits. -/
theorem maskInt64_eq (c : Int) : maskInt64 c = ((toUint64 c &&& signMask : Nat) : Int) := by
  unfold maskInt64 toInt64
  rw [if_pos (maskInt64_lt c)]

/-- The index written by one iteration, as a remainder of natural numbers: Go's truncated
`%` by `int64(m)` divides by `m` when `m < 2 ^ 63` and by `2 ^ 64 - m` otherwise. -/
theorem index_eq {m : Nat} (h : m < uintSize) (c : Int) :
    toUint64 (Int.tmod (maskInt64 c) (toInt64 m)) =
      (toUint64 c &&& signMask) % (if m < 2 ^ 63 then m else 2 ^ 64 - m) := by
  have hv := maskInt64_lt c
  rw [maskInt64_eq]
  generalize toUint64 c &&& signMask = v at hv
  unfold uintSize at h
  unfold toInt64
  by_cases hm : m < 2 ^ 63
  · rw [if_pos hm, if_pos hm, ← Int.ofNat_tmod]
    exact toUint64_natCast (lt_of_le_of_lt (Nat.mod_le _ _) (by omega))
  · rw [if_neg hm, if_neg hm]
    have e : ((m : Int) - 2 ^ 64) = -((2 ^ 64 - m : Nat) : Int) := by
      rw [Nat.cast_sub (by omega)]
      push_cast
      ring
    rw [e, Int.tmod_neg, ← Int.ofNat_tmod]
    exact toUint64_natCast (lt_of_le_of_lt (Nat.mod_le _ _) (by omega))

theorem index_lt {m : Nat} (h0 : 0 < m) (h : m < uintSize) (c : Int) :
    toUint64 (Int.tmod (maskInt64 c) (toInt64 m)) < m := by
  rw [index_eq h]
  unfold uintSize at h
  split
  · exact Nat.mod_lt _ h0
  · have := Nat.mod_lt (toUint64 c &&& signMask) (show 0 < 2 ^ 64 - m by omega)
    omega

/-- The loop returns `n` indexes, each below `m`, when `0 < m < 2 ^ 64`. -/
theorem indexesLoop_spec {m : Nat} (h0 : 0 < m) (h : m < uintSize) (h2 : Nat) :
    ∀ (n : Nat) (c : Int), ∃ l, indexesLoop m h2 n c = some l ∧ l.length = n ∧
      ∀ i ∈ l, i < m
  | 0, _ => ⟨[], rfl, rfl, by simp⟩
  | n + 1, c => by
    obtain ⟨l, hl, hlen, hlt⟩ := indexesLoop_spec h0 h h2 n (addInt64 c (toInt64 h2))
    refine ⟨toUint64 (Int.tmod (maskInt64 c) (toInt64 m)) :: l, ?_, by simp [hlen], ?_⟩
    · simp [indexesLoop, toInt64_ne_zero h0 h, hl]
    · intro i hi
      rcases List.mem_cons.mp hi with rfl | hi
      · exact index_lt h0 h c
      · exact hlt i hi

/-- When `make([]uint, k)` returns, `Indexes` is the loop on the hash of the input. -/
theorem Indexes_of_makeReturns {k : Nat} (hk : MakeReturns k 8) (data : List Nat) (m : Nat) :
    MURMUR128MITZ64.Indexes data m k =
      indexesLoop m (Murmur3.Sum128 data).2 k (toInt64 (Murmur3.Sum128 data).1) := by
  unfold MURMUR128MITZ64.Indexes
  rw [if_pos hk]

/-- When `make([]uint, k)` panics, so does `Indexes`. -/
theorem Indexes_of_not_makeReturns {k : Nat} (hk : ¬ MakeReturns k 8) (data : List Nat)
    (m : Nat) : MURMUR128MITZ64.Indexes data m k = none := by
  unfold MURMUR128MITZ64.Indexes
  rw [if_neg hk]

/-- A result of `Indexes`, for `0 < m < 2 ^ 64`: `make` returned, and the result has `k`
indexes, each below `m`. -/
theorem Indexes_some {data : List Nat} {m k : Nat} {l : List Nat} (h0 : 0 < m)
    (h : m < uintSize) (hl : MURMUR128MITZ64.Indexes data m k = some l) :
    MakeReturns k 8 ∧ l.length = k ∧ ∀ i ∈ l, i < m := by
  by_cases hk : MakeReturns k 8
  · rw [Indexes_of_makeReturns hk] at hl
    obtain ⟨l2, hl2, hlen, hlt⟩ :=
      indexesLoop_spec h0 h (Murmur3.Sum128 data).2 k (toInt64 (Murmur3.Sum128 data).1)
    rw [hl2] at hl
    cases hl
    exact ⟨hk, hlen, hlt⟩
  · rw [Indexes_of_not_makeReturns hk] at hl
    cases hl

theorem MURMUR_below {f : Filter} (hs : f.s = MURMUR128MITZ64) (h0 : 0 < f.m)
    (h : f.m < uintSize) (hk : MakeReturns f.k 8) : f.StrategyBelow := by
  intro d
  obtain ⟨l, hl, _, hlt⟩ :=
    indexesLoop_spec h0 h (Murmur3.Sum128 d).2 f.k (toInt64 (Murmur3.Sum128 d).1)
  refine ⟨l, ?_, hlt⟩
  rw [hs]
  show MURMUR128MITZ64.Indexes d f.m f.k = some l
  rw [Indexes_of_makeReturns hk]
  exact hl

end Bloom

/-! ## Tight bit sets and padded filters -/

namespace Bloom
namespace BitSet

theorem resize_self (set : List Nat) : resize set set.length = set := by
  simp [resize]

theorem testBit_one_shiftLeft_mod {i j : Nat} (hq : i / 64 = j / 64) (hne : i ≠ j) :
    (1 <<< (i % 64)).testBit (j % 64) = false := by
  rw [Nat.one_shiftLeft, Nat.testBit_two_pow]
  simp
  omega

/-- Value of `Set` at an index inside the word capacity of a tight bit set: the length is
raised to `i + 1` when `i` is at or beyond it, and the bit is or-ed into its word. -/
theorem Set_tight {b : BitSet} {i : Nat} (ht : b.Tight) (hi : i < 64 * b.set.length)
    (hcap : 64 * b.set.length ≤ uintSize - 64) :
    ∃ b1, b.Set i = some b1 ∧ b1.Tight ∧ b1.set.length = b.set.length := by
  obtain ⟨h1, h2, h3⟩ := ht
  have hu : uintSize = 2 ^ 64 := rfl
  have hw : i / 64 < b.set.length := by omega
  have hex : (extendSetMaybe b i).set = b.set ∧
      (extendSetMaybe b i).length = (if i ≥ b.length then i + 1 else b.length) := by
    unfold extendSetMaybe
    split
    · have e1 : (i + 1) % uintSize = i + 1 := Nat.mod_eq_of_lt (by omega)
      have e2 : wordsNeeded (i + 1) = b.set.length := by
        rw [wordsNeeded_eq (by omega)]
        omega
      simp only [e1, e2, resize_self, and_self]
    · exact ⟨rfl, rfl⟩
  obtain ⟨hs, hl⟩ := hex
  refine ⟨⟨(extendSetMaybe b i).length,
    b.set.set (i / 64) (b.set[i / 64] ||| (1 <<< (i % 64)))⟩, ?_, ⟨?_, ?_, ?_⟩, ?_⟩
  · unfold Set
    simp only [hs, shift_eq_div, and_eq_mod, List.getElem?_eq_getElem hw]
  · simp only [List.length_set, hl]
    split <;> omega
  · simp only [List.length_set, hl]
    split <;> omega
  · intro j hj w hjw
    simp only [hl] at hj
    have hij : i ≠ j := by
      split at hj <;> omega
    have hbj : b.length ≤ j := by
      split at hj <;> omega
    by_cases hq : i / 64 = j / 64
    · simp only [← hq, List.getElem?_set, hw, if_true] at hjw
      have := h3 j hbj (b.set[i / 64]) (by rw [← hq]; exact List.getElem?_eq_getElem hw)
      cases hjw
      rw [Nat.testBit_or, this, testBit_one_shiftLeft_mod hq hij]
      rfl
    · simp only [List.getElem?_set, hq, if_false] at hjw
      exact h3 j hbj w hjw
  · simp

/-- A length whose words `make` can allocate is at most `2 ^ 64 - 64`. -/
theorem le_of_makeReturns {m : Nat} (h : MakeReturns (wordsNeeded m) 8) :
    m ≤ uintSize - 64 := by
  by_contra hgt
  have hw : wordsNeeded m = 2 ^ 58 - 1 := by
    unfold wordsNeeded Cap wordSize log2WordSize uintSize at *
    rw [if_pos (by omega)]
    decide
  rw [hw] at h
  exact absurd h (by decide)

theorem New_of_makeReturns {m : Nat} (h : MakeReturns (wordsNeeded m) 8) :
    New m = ⟨m, List.replicate ((m + 63) / 64) 0⟩ := by
  unfold New
  rw [if_pos h, wordsNeeded_eq (le_of_makeReturns h)]

theorem New_of_not_makeReturns {m : Nat} (h : ¬ MakeReturns (wordsNeeded m) 8) :
    New m = ⟨0, []⟩ := by
  unfold New
  rw [if_neg h]

theorem New_tight (m : Nat) : (New m).Tight := by
  by_cases h : MakeReturns (wordsNeeded m) 8
  · rw [New_of_makeReturns h]
    have hm := le_of_makeReturns h
    unfold Tight ClearBeyond
    refine ⟨by simp; omega, by simp; omega, ?_⟩
    intro j _ w hw
    simp only [List.getElem?_replicate] at hw
    split at hw
    · cases hw
      simp
    · cases hw
  · rw [New_of_not_makeReturns h]
    refine ⟨by simp, by simp, ?_⟩
    intro j _ w hw
    simp at hw

theorem Tight.covered {b : BitSet} (h : b.Tight) : b.Covered := h.1

end BitSet

namespace Filter

theorem setAll_tight : ∀ (indexes : List Nat) (b : BitSet), b.Tight →
    (∀ i ∈ indexes, i < 64 * b.set.length) → 64 * b.set.length ≤ uintSize - 64 →
    ∃ b1, setAll b indexes = some b1 ∧ b1.Tight ∧ b1.set.length = b.set.length
  | [], b, ht, _, _ => ⟨b, rfl, ht, rfl⟩
  | i :: rest, b, ht, hi, hcap => by
    obtain ⟨b1, h1, ht1, hl1⟩ := BitSet.Set_tight ht (hi i (List.mem_cons_self _ _)) hcap
    obtain ⟨b2, h2, ht2, hl2⟩ := setAll_tight rest b1 ht1
      (fun j hj => by rw [hl1]; exact hi j (List.mem_cons_of_mem _ hj)) (by rw [hl1]; exact hcap)
    exact ⟨b2, by simp [setAll, h1, h2], ht2, hl2.trans hl1⟩

theorem Put_padded {f : Filter} (d : List Nat) (hp : f.Padded) (hs : f.StrategyBelow) :
    ∃ f1, f.Put d = some f1 ∧ f1.m = f.m ∧ f1.k = f.k ∧ f1.s = f.s ∧ f1.Padded := by
  obtain ⟨p1, p2, p3, p4⟩ := hp
  obtain ⟨indexes, hidx, hlt⟩ := hs d
  obtain ⟨b1, h1, ht1, hl1⟩ := setAll_tight indexes f.bits p4
    (fun i hi => by rw [← p1]; exact hlt i hi) (by rw [← p1]; exact p2)
  refine ⟨{ f with bits := b1 }, by simp [Put, hidx, h1], rfl, rfl, rfl, ?_⟩
  exact ⟨by show f.m = 64 * b1.set.length; rw [hl1]; exact p1, p2, p3, ht1⟩

theorem putAll_padded : ∀ (ds : List (List Nat)) {f : Filter}, f.Padded → f.StrategyBelow →
    ∃ f1, f.putAll ds = some f1 ∧ f1.m = f.m ∧ f1.k = f.k ∧ f1.s = f.s ∧ f1.Padded
  | [], f, hp, _ => ⟨f, rfl, rfl, rfl, rfl, hp⟩
  | d :: ds, f, hp, hs => by
    obtain ⟨f1, h1, e1, e2, e3, hp1⟩ := Put_padded d hp hs
    have hs1 : f1.StrategyBelow := by
      intro x
      rw [e1, e2, e3]
      exact hs x
    obtain ⟨f2, h2, g1, g2, g3, hp2⟩ := putAll_padded ds hp1 hs1
    exact ⟨f2, by simp [putAll, h1, h2], g1.trans e1, g2.trans e2, g3.trans e3, hp2⟩

theorem testAll_congr {b1 b2 : BitSet} : ∀ {indexes : List Nat},
    (∀ i ∈ indexes, b1.Test i = b2.Test i) → testAll b1 indexes = testAll b2 indexes
  | [], _ => rfl
  | i :: rest, h => by
    have h1 := h i (List.mem_cons_self _ _)
    have h2 := testAll_congr (fun j hj => h j (List.mem_cons_of_mem _ hj))
    simp only [testAll, h1, h2]

/-- On a padded filter, a bit below `m` tests the same in the filter's bit set and in the
bit set rebuilt from its words. -/
theorem Test_From_Bytes {f : Filter} (hp : f.Padded) {i : Nat} (hi : i < f.m) :
    (BitSet.From f.bits.Bytes).Test i = f.bits.Test i := by
  obtain ⟨p1, p2, _, _, _, p6⟩ := hp
  have hu : uintSize = 2 ^ 64 := rfl
  have hw : i / 64 < f.bits.set.length := by omega
  rw [BitSet.Test_eq, BitSet.Test_eq]
  have hlen : (BitSet.From f.bits.Bytes).length = f.m := by
    show (f.bits.set.length * 64) % uintSize = f.m
    rw [Nat.mod_eq_of_lt (by omega)]
    omega
  rw [hlen, if_neg (by omega)]
  show Option.map _ f.bits.set[i / 64]? = _
  split
  · rename_i hge
    rw [List.getElem?_eq_getElem hw]
    simp only [Option.map_some', Option.some.injEq]
    exact p6 i hge _ (List.getElem?_eq_getElem hw)
  · rfl

end Filter
end Bloom

/-! ## Floating-point conversions and the estimate -/

namespace Bloom
namespace F64

theorem toUint_lt (x : F64) : toUint x < uintSize := by
  have hmod : ∀ z : Int, (z % 2 ^ 64).toNat < 2 ^ 64 := by
    intro z
    have h1 : z % 2 ^ 64 < 2 ^ 64 := Int.emod_lt_of_pos z (by norm_num)
    have h2 : 0 ≤ z % 2 ^ 64 := Int.emod_nonneg z (by norm_num)
    omega
  unfold toUint uintSize
  split
  · exact hmod _
  · exact Nat.or_lt_two_pow (hmod _) (by norm_num)

theorem ofUint_one : ofUint 1 = finite false (2 ^ 52) (-52) := by decide!

theorem scaled_one : scaled false (2 ^ 52) (-52) = ((2 ^ 1074 : Nat) : Int) := by decide!

theorem scaled_two_pow_63 :
    scaled false (2 ^ 52) 11 = ((2 ^ 63 : Nat) : Int) * ((2 ^ 1074 : Nat) : Int) := by decide!

theorem toUint_of_not_lt {x : F64} (h : lt x (finite false (2 ^ 52) 11) = false) :
    1 ≤ toUint x := by
  unfold toUint
  rw [h]
  simp only [Bool.false_eq_true, if_false]
  have hb : (((x.sub (finite false (2 ^ 52) 11)).cvt % 2 ^ 64).toNat ||| 2 ^ 63).testBit 63 = true := by
    rw [Nat.testBit_or, Nat.testBit_two_pow_self, Bool.or_true]
  have := Nat.testBit_implies_ge hb
  omega

/-- The conversion of a finite value that is at least `1` is at least `1`. -/
theorem toUint_finite_ge_one {s : Bool} {m : Nat} {e : Int}
    (h : lt (finite s m e) (finite false (2 ^ 52) (-52)) = false) :
    1 ≤ toUint (finite s m e) := by
  by_cases hlt : lt (finite s m e) (finite false (2 ^ 52) 11) = false
  · exact toUint_of_not_lt hlt
  · simp only [Bool.not_eq_false] at hlt
    unfold toUint
    rw [hlt]
    simp only [if_true]
    simp only [lt, scaled_one, decide_eq_false_iff_not, not_lt] at h
    simp only [lt, scaled_two_pow_63, decide_eq_true_eq] at hlt
    generalize hsc : scaled s m e = v at h hlt
    have hP : (0 : Int) < ((2 ^ 1074 : Nat) : Int) := by positivity
    generalize hPd : ((2 ^ 1074 : Nat) : Int) = P at h hlt hP
    have hv : 0 ≤ v := le_trans hP.le h
    have hz1 : 1 ≤ Int.tdiv v P := by
      rw [Int.tdiv_eq_ediv hv hP.le]
      exact (Int.le_ediv_iff_mul_le hP).mpr (by linarith)
    have hz2 : Int.tdiv v P < 2 ^ 63 := by
      rw [Int.tdiv_eq_ediv hv hP.le]
      exact (Int.ediv_lt_iff_lt_mul hP).mpr (by simpa using hlt)
    have hc : cvt (finite s m e) = Int.tdiv v P := by
      simp only [cvt, hsc, hPd]
      rw [if_pos ⟨by linarith, hz2⟩]
    rw [hc]
    omega

theorem eq_one_zero : eq (finite false (2 ^ 52) (-52)) (finite false 0 (-1074)) = false := by
  decide!

theorem toUint_one : toUint (finite false (2 ^ 52) (-52)) = 1 := by decide!

/-- The conversion `uint(math.Max(1, y))` is at least `1` for every `y`. -/
theorem toUint_Max_one (y : F64) : 1 ≤ toUint (Max (ofUint 1) y) := by
  rw [ofUint_one]
  unfold Max
  rw [eq_one_zero]
  cases y with
  | nan =>
    simp only [reduceCtorEq, or_false, or_true, if_true, if_false, false_or]
    exact toUint_of_not_lt rfl
  | inf t =>
    cases t
    · simp only [or_true, if_true]
      exact toUint_of_not_lt rfl
    · simp only [reduceCtorEq, or_false, if_false, Bool.false_and, Bool.false_eq_true, inf.injEq]
      simp only [lt, if_true, toUint_one, le_refl]
  | finite t n f =>
    simp only [reduceCtorEq, or_false, if_false, Bool.false_and, Bool.false_eq_true]
    split
    · simp only [toUint_one, le_refl]
    · rename_i h
      exact toUint_finite_ge_one (by simpa using h)

end F64

theorem pad_eq {m : Nat} (h : m ≤ uintSize - 64) : pad m = 64 * ((m + 63) / 64) := by
  unfold pad uintSize at *
  simp only
  split <;> omega

theorem pad_pos {m : Nat} (h : m < uintSize) (hp : 0 < pad m) : 0 < m ∧ m ≤ uintSize - 64 := by
  unfold pad uintSize at *
  simp only at hp
  split at hp <;> omega

/-- A filter made from an estimate `(m, k)` with `pad(m) > 0`, whose bit set `make` can
allocate, is padded. -/
theorem padded_of_estimate {m k : Nat} {s : Strategy}
    (ha : MakeReturns (BitSet.wordsNeeded m) 8) (hp : 0 < pad m) :
    Filter.Padded ⟨pad m, k, BitSet.New m, s⟩ := by
  have h2 := BitSet.le_of_makeReturns ha
  refine ⟨?_, ?_, hp, BitSet.New_tight m⟩
  · show pad m = 64 * (BitSet.New m).set.length
    rw [pad_eq h2, BitSet.New_of_makeReturns ha]
    simp
  · show pad m ≤ uintSize - 64
    rw [pad_eq h2]
    unfold uintSize at *
    omega

theorem EstimateParameters_lt (n : Nat) (p : F64) : (EstimateParameters n p).1 < uintSize :=
  F64.toUint_lt _

/-- The filters of `From` and `FromWithStrategy`, on fewer than `2 ^ 58` words, have `m`
at most `2 ^ 64 - 64` and a bit set that covers its length. -/
theorem FromWithStrategy_covered (words : List Nat) (k : Nat) (s : Strategy)
    (h : words.length < 2 ^ 58) :
    (FromWithStrategy words k s).m ≤ uintSize - 64 ∧
      (FromWithStrategy words k s).bits.Covered ∧
      (From words k).m ≤ uintSize - 64 ∧ (From words k).bits.Covered := by
  have e : (words.length * 64) % uintSize = 64 * words.length := by
    unfold uintSize
    omega
  have h1 : (FromWithStrategy words k s).m ≤ uintSize - 64 := by
    show (words.length * 64) % uintSize ≤ uintSize - 64
    rw [e]
    unfold uintSize
    omega
  have h2 : (BitSet.From words).Covered := by
    show (words.length * 64) % uintSize ≤ 64 * words.length
    rw [e]
  exact ⟨h1, h2, h1, h2⟩

theorem pad_le {m : Nat} (h : m < uintSize) : pad m ≤ uintSize - 64 := by
  unfold pad uintSize at *
  simp only
  split <;> omega

/-- The filters of `NewWithStrategy`, `NewWithFPP` and `New` have `m` at most
`2 ^ 64 - 64` and a bit set that covers its length. -/
theorem NewWithStrategy_covered (n : Nat) (p : F64) (s : Strategy) :
    (NewWithStrategy n p s).m ≤ uintSize - 64 ∧ (NewWithStrategy n p s).bits.Covered :=
  ⟨pad_le (EstimateParameters_lt n p), (BitSet.New_tight _).covered⟩

end Bloom

/-! ## The accumulator of the default strategy -/

namespace Bloom

theorem toUint64_toInt64 (x : Nat) : toUint64 (toInt64 x) = x % 2 ^ 64 := by
  unfold toUint64 toInt64
  split <;> omega

theorem toUint64_addInt64 (c : Int) (h2 : Nat) :
    toUint64 (addInt64 c (toInt64 h2)) = (toUint64 c + h2) % 2 ^ 64 := by
  unfold addInt64
  rw [toUint64_toInt64]
  unfold toUint64 toInt64
  split <;> omega

theorem and_signMask (x : Nat) : x &&& signMask = x % 2 ^ 63 :=
  Nat.and_pow_two_sub_one_eq_mod x 63

/-- Element `i` of the loop's result, for `m < 2 ^ 63`: the bit pattern of the accumulator
advanced by `i * h2`, reduced modulo `2 ^ 63` and then modulo `m`. -/
theorem indexesLoop_getElem {m : Nat} (h0 : 0 < m) (h : m < 2 ^ 63) (h2 : Nat) :
    ∀ (n : Nat) (c : Int) (i : Nat), i < n →
      ∃ l, indexesLoop m h2 n c = some l ∧
        l[i]? = some (((toUint64 c + i * h2) % 2 ^ 63) % m)
  | 0, _, _, hi => absurd hi (Nat.not_lt_zero _)
  | n + 1, c, i, hi => by
    have hm : m < uintSize := lt_trans h (by decide)
    obtain ⟨l, hl, _, _⟩ := indexesLoop_spec h0 hm h2 n (addInt64 c (toInt64 h2))
    have hloop : indexesLoop m h2 (n + 1) c =
        some (toUint64 (Int.tmod (maskInt64 c) (toInt64 m)) :: l) := by
      simp [indexesLoop, toInt64_ne_zero h0 hm, hl]
    refine ⟨_, hloop, ?_⟩
    cases i with
    | zero =>
      rw [List.getElem?_cons_zero, index_eq hm, if_pos h, and_signMask]
      simp
    | succ j =>
      obtain ⟨l2, hl2, hj⟩ :=
        indexesLoop_getElem h0 h h2 n (addInt64 c (toInt64 h2)) j (by omega)
      rw [hl] at hl2
      cases hl2
      rw [List.getElem?_cons_succ, hj, toUint64_addInt64]
      congr 2
      have : (j + 1) * h2 = h2 + j * h2 := by ring
      rw [this]
      omega

end Bloom

/-! ## Conversions between `uint` and `float64` -/

namespace Bloom

namespace F64

theorem log2Loop_le : ∀ (fuel n : Nat), 1 ≤ n → 2 ^ log2Loop fuel n ≤ n
  | 0, n, h => by simpa [log2Loop] using h
  | fuel + 1, n, h => by
    unfold log2Loop
    split
    · simpa using h
    · have := log2Loop_le fuel (n / 2) (by omega)
      rw [pow_succ]
      omega

theorem mant_pos_of_le {n1 d1 : Nat} (hd : 0 < d1) (h : d1 ≤ n1) :
    0 < (if 2 * (n1 % d1) < d1 then n1 / d1
      else if 2 * (n1 % d1) > d1 then n1 / d1 + 1
      else if n1 / d1 % 2 = 0 then n1 / d1 else n1 / d1 + 1) := by
  have : 0 < n1 / d1 := Nat.div_pos h hd
  split_ifs <;> omega

/-- The value of `round` on a non-zero numerator, with its intermediate results named. -/
theorem round_eq (neg : Bool) {num den : Nat} (h : num ≠ 0) {e0 e qe : Int}
    {n1 d1 mant : Nat} (he0 : e0 = (log2 num : Int) - (log2 den : Int))
    (he : e = if num * 2 ^ (-e0).toNat ≥ den * 2 ^ e0.toNat then e0 else e0 - 1)
    (hqe : qe = if e - 52 ≥ -1074 then e - 52 else -1074)
    (hn1 : n1 = num * 2 ^ (-qe).toNat) (hd1 : d1 = den * 2 ^ qe.toNat)
    (hmant : mant = if 2 * (n1 % d1) < d1 then n1 / d1
      else if 2 * (n1 % d1) > d1 then n1 / d1 + 1
      else if n1 / d1 % 2 = 0 then n1 / d1 else n1 / d1 + 1) :
    round neg num den =
      if (if mant = 2 ^ 53 then qe + 1 else qe) > 971 then inf neg
      else finite neg (if mant = 2 ^ 53 then 2 ^ 52 else mant)
        (if mant = 2 ^ 53 then qe + 1 else qe) := by
  subst he0 he hqe hn1 hd1 hmant
  unfold round
  rw [if_neg h]

/-- The `float64` of a `uint` that is at least `1` is not a zero. -/
theorem ofUint_pos {n : Nat} (h : 1 ≤ n) :
    ofUint n = inf false ∨ ∃ m e, 0 < m ∧ ofUint n = finite false m e := by
  have hl : 2 ^ log2 n ≤ n := log2Loop_le n n h
  have hl1 : log2 1 = 0 := by decide
  obtain ⟨e0, he0⟩ : ∃ e0 : Int, e0 = (log2 n : Int) - (log2 1 : Int) := ⟨_, rfl⟩
  obtain ⟨e, he⟩ : ∃ e : Int,
      e = if n * 2 ^ (-e0).toNat ≥ 1 * 2 ^ e0.toNat then e0 else e0 - 1 := ⟨_, rfl⟩
  obtain ⟨qe, hqe⟩ : ∃ qe : Int, qe = if e - 52 ≥ -1074 then e - 52 else -1074 := ⟨_, rfl⟩
  obtain ⟨n1, hn1⟩ : ∃ n1 : Nat, n1 = n * 2 ^ (-qe).toNat := ⟨_, rfl⟩
  obtain ⟨d1, hd1⟩ : ∃ d1 : Nat, d1 = 1 * 2 ^ qe.toNat := ⟨_, rfl⟩
  obtain ⟨mant, hmant⟩ : ∃ mant : Nat, mant = if 2 * (n1 % d1) < d1 then n1 / d1
      else if 2 * (n1 % d1) > d1 then n1 / d1 + 1
      else if n1 / d1 % 2 = 0 then n1 / d1 else n1 / d1 + 1 := ⟨_, rfl⟩
  have hr := round_eq false (show n ≠ 0 by omega) he0 he hqe hn1 hd1 hmant
  unfold ofUint
  rw [hr]
  have hd : 0 < d1 := by rw [hd1]; positivity
  have hle : d1 ≤ n1 := by
    rw [hd1, hn1, one_mul]
    have hqe_le : qe.toNat ≤ log2 n := by
      rw [hl1] at he0
      have : e ≤ e0 := by rw [he]; split <;> omega
      rw [hqe]
      split <;> omega
    calc 2 ^ qe.toNat ≤ 2 ^ log2 n := Nat.pow_le_pow_right (by norm_num) hqe_le
      _ ≤ n := hl
      _ ≤ n * 2 ^ (-qe).toNat := Nat.le_mul_of_pos_right _ (by positivity)
  have hpos : 0 < mant := by
    rw [hmant]
    exact mant_pos_of_le hd hle
  by_cases hinf : (if mant = 2 ^ 53 then qe + 1 else qe) > 971
  · left
    rw [if_pos hinf]
  · right
    rw [if_neg hinf]
    refine ⟨_, _, ?_, rfl⟩
    split
    · positivity
    · exact hpos

theorem eq_zero_of_ofUint {n : Nat} (h : 1 ≤ n) :
    eq (ofUint n) (finite false 0 (-1074)) = false := by
  rcases ofUint_pos h with h1 | ⟨m, e, hm, h1⟩
  · rw [h1]; rfl
  · rw [h1]
    simp only [eq, scaled, decide_eq_false_iff_not, Bool.false_eq_true, if_false]
    have : 0 < m * 2 ^ (e + 1074).toNat := Nat.mul_pos hm (by positivity)
    simp
    omega

end F64

/-- The conversion `uint(x)` of a finite, non-negative `x` below `2 ^ 63` is its integer
part. -/
theorem F64.toUint_finite {mant : Nat} {e : Int}
    (hlt : F64.lt (F64.finite false mant e) (F64.finite false (2 ^ 52) 11) = true) :
    F64.toUint (F64.finite false mant e) = mant * 2 ^ (e + 1074).toNat / 2 ^ 1074 := by
  unfold F64.toUint
  rw [hlt]
  simp only [if_true]
  simp only [F64.lt, F64.scaled_two_pow_63, decide_eq_true_eq] at hlt
  have hs : F64.scaled false mant e = ((mant * 2 ^ (e + 1074).toNat : Nat) : Int) := by
    simp [F64.scaled]
  rw [hs] at hlt
  simp only [F64.cvt, hs]
  generalize mant * 2 ^ (e + 1074).toNat = v at hlt
  have hP : 0 < 2 ^ 1074 := by positivity
  generalize (2 ^ 1074 : Nat) = P at hlt hP
  have hz : Int.tdiv (v : Int) (P : Int) = ((v / P : Nat) : Int) := by
    rw [Int.tdiv_eq_ediv (by positivity) (by positivity)]
    norm_cast
  have hz2 : v / P < 2 ^ 63 := by
    apply (Nat.div_lt_iff_lt_mul hP).mpr
    exact_mod_cast hlt
  generalize v / P = w at hz hz2
  rw [hz, if_pos ⟨by omega, by exact_mod_cast hz2⟩]
  omega

end Bloom

/-! ## The bits of a tight bit set -/

namespace Bloom

namespace BitSet

theorem wordBit_of_getElem? {b : BitSet} {q w : Nat} (h : b.set[q]? = some w) (r : Nat) :
    b.wordBit q r = w.testBit r := by
  unfold wordBit
  rw [List.getD_eq_getElem?_getD, h]
  rfl

theorem wordBit_of_length_le {b : BitSet} {q : Nat} (h : b.set.length ≤ q) (r : Nat) :
    b.wordBit q r = false := by
  unfold wordBit
  rw [List.getD_eq_getElem?_getD, List.getElem?_eq_none h]
  simp

/-- On a tight bit set a set bit of the words lies below the length. -/
theorem Tight.lt_of_wordBit {b : BitSet} (h : b.Tight) {j : Nat}
    (hb : b.wordBit (j / 64) (j % 64) = true) : j < b.length := by
  by_contra hge
  by_cases hq : j / 64 < b.set.length
  · have := h.2.2 j (by omega) _ (List.getElem?_eq_getElem hq)
    rw [wordBit_of_getElem? (List.getElem?_eq_getElem hq)] at hb
    rw [this] at hb
    cases hb
  · rw [wordBit_of_length_le (by omega)] at hb
    cases hb

/-- On a tight bit set `Test` returns, with the bit of the words. -/
theorem Test_tight {b : BitSet} (h : b.Tight) (j : Nat) :
    b.Test j = some (b.wordBit (j / 64) (j % 64)) := by
  rw [Test_eq]
  split
  · rename_i hge
    cases hb : b.wordBit (j / 64) (j % 64)
    · rfl
    · have := h.lt_of_wordBit hb
      omega
  · rename_i hlt
    have hq : j / 64 < b.set.length := by
      have := h.1
      omega
    rw [List.getElem?_eq_getElem hq, wordBit_of_getElem? (List.getElem?_eq_getElem hq)]
    rfl

theorem From_tight {words : List Nat} (h : words.length < 2 ^ 58) : (From words).Tight := by
  have e : (words.length * 64) % uintSize = 64 * words.length := by
    unfold uintSize
    omega
  refine ⟨?_, ?_, ?_⟩
  · show (words.length * 64) % uintSize ≤ 64 * words.length
    omega
  · show 64 * words.length < (words.length * 64) % uintSize + 64
    omega
  · intro j hj w hw
    have hj2 : 64 * words.length ≤ j := by
      have : (From words).length = 64 * words.length := e
      omega
    have : words.length ≤ j / 64 := by omega
    have hn : (From words).set[j / 64]? = none := List.getElem?_eq_none this
    rw [hn] at hw
    cases hw

theorem wordBit_New (m q r : Nat) : (New m).wordBit q r = false := by
  unfold wordBit New
  split
  · simp only
    rw [List.getD_eq_getElem?_getD, List.getElem?_replicate]
    split <;> simp
  · simp

end BitSet

namespace Filter

theorem Put_aligned {f : Filter} (d : List Nat) (hp : f.Aligned) (hs : f.StrategyBelow) :
    ∃ f1, f.Put d = some f1 ∧ f1.m = f.m ∧ f1.k = f.k ∧ f1.s = f.s ∧ f1.Aligned := by
  obtain ⟨p1, p2, p4⟩ := hp
  obtain ⟨indexes, hidx, hlt⟩ := hs d
  obtain ⟨b1, h1, ht1, hl1⟩ := setAll_tight indexes f.bits p4
    (fun i hi => by rw [← p1]; exact hlt i hi) (by rw [← p1]; exact p2)
  refine ⟨{ f with bits := b1 }, by simp [Put, hidx, h1], rfl, rfl, rfl, ?_⟩
  exact ⟨by show f.m = 64 * b1.set.length; rw [hl1]; exact p1, p2, ht1⟩

theorem putAll_aligned : ∀ (ds : List (List Nat)) {f : Filter}, f.Aligned →
    f.StrategyBelow →
    ∃ f1, f.putAll ds = some f1 ∧ f1.m = f.m ∧ f1.k = f.k ∧ f1.s = f.s ∧ f1.Aligned
  | [], f, hp, _ => ⟨f, rfl, rfl, rfl, rfl, hp⟩
  | d :: ds, f, hp, hs => by
    obtain ⟨f1, h1, e1, e2, e3, hp1⟩ := Put_aligned d hp hs
    have hs1 : f1.StrategyBelow := by
      intro x
      rw [e1, e2, e3]
      exact hs x
    obtain ⟨f2, h2, g1, g2, g3, hp2⟩ := putAll_aligned ds hp1 hs1
    exact ⟨f2, by simp [putAll, h1, h2], g1.trans e1, g2.trans e2, g3.trans e3, hp2⟩

end Filter

/-- A filter made from an estimate `m` whose bit set `make` can allocate is aligned. -/
theorem aligned_of_estimate {m : Nat} (k : Nat) (s : Strategy)
    (ha : MakeReturns (BitSet.wordsNeeded m) 8) :
    Filter.Aligned ⟨pad m, k, BitSet.New m, s⟩ := by
  have h := BitSet.le_of_makeReturns ha
  refine ⟨?_, ?_, BitSet.New_tight m⟩
  · show pad m = 64 * (BitSet.New m).set.length
    rw [pad_eq h, BitSet.New_of_makeReturns ha]
    simp
  · show pad m ≤ uintSize - 64
    rw [pad_eq h]
    unfold uintSize at *
    omega

/-- A filter made by `FromWithStrategy` from fewer than `2 ^ 58` words is aligned. -/
theorem aligned_FromWithStrategy (words : List Nat) (k : Nat) (s : Strategy)
    (h : words.length < 2 ^ 58) : (FromWithStrategy words k s).Aligned := by
  have e : (words.length * 64) % uintSize = 64 * words.length := by
    unfold uintSize
    omega
  refine ⟨e, ?_, BitSet.From_tight h⟩
  show (words.length * 64) % uintSize ≤ uintSize - 64
  rw [e]
  unfold uintSize
  omega

end Bloom

/-! ## Calls that panic in `make` -/

namespace Bloom
namespace Filter

/-- With the default strategy and a `k` on which `make([]uint, k)` panics, `Put`
panics. -/
theorem Put_none_of_not_makeReturns {f : Filter} (hs : f.s = MURMUR128MITZ64)
    (hk : ¬ MakeReturns f.k 8) (d : List Nat) : f.Put d = none := by
  have hI : f.s.Indexes d f.m f.k = none := by
    rw [hs]
    exact Indexes_of_not_makeReturns hk d f.m
  simp [Put, hI]

/-- With the default strategy and a `k` on which `make([]uint, k)` panics, `MightContain`
panics. -/
theorem MightContain_none_of_not_makeReturns {f : Filter} (hs : f.s = MURMUR128MITZ64)
    (hk : ¬ MakeReturns f.k 8) (d : List Nat) : f.MightContain d = none := by
  have hI : f.s.Indexes d f.m f.k = none := by
    rw [hs]
    exact Indexes_of_not_makeReturns hk d f.m
  simp [MightContain, hI]

theorem putAll_cons_none {f : Filter} {d : List Nat} (ds : List (List Nat))
    (h : f.Put d = none) : f.putAll (d :: ds) = none := by
  simp [putAll, h]

/-- The filter rebuilt from the words and `k` of a padded filter with the default strategy
has its `m` and `k` and answers `MightContain` as it does. -/
theorem From_B_of_padded {f : Filter} (hp : f.Padded) (hs : f.s = MURMUR128MITZ64) :
    (From f.B f.K).M = f.M ∧ (From f.B f.K).K = f.K ∧
      ∀ d, (From f.B f.K).MightContain d = f.MightContain d := by
  have hM : (From f.B f.K).M = f.M := by
    show (f.bits.set.length * 64) % uintSize = f.m
    have h1 := hp.1
    have h2 := hp.2.1
    rw [Nat.mod_eq_of_lt (by unfold uintSize at *; omega)]
    omega
  refine ⟨hM, rfl, ?_⟩
  intro d
  have hg : (From f.B f.K).s.Indexes d (From f.B f.K).m (From f.B f.K).k =
      MURMUR128MITZ64.Indexes d f.m f.k := by
    have : (From f.B f.K).m = f.m := hM
    rw [this]
    rfl
  have hf2 : f.s.Indexes d f.m f.k = MURMUR128MITZ64.Indexes d f.m f.k := by
    rw [hs]
    rfl
  unfold MightContain
  rw [hg, hf2]
  cases hI : MURMUR128MITZ64.Indexes d f.m f.k with
  | none => rfl
  | some l =>
    obtain ⟨_, _, hlt⟩ := Indexes_some hp.2.2.1 (lt_of_le_of_lt hp.2.1 (by decide)) hI
    exact testAll_congr (fun i hi => Test_From_Bytes hp (hlt i hi))

end Filter
end Bloom

/-! ## Claims -/

namespace Bloom

/-- The bytes of the test string, written out. -/
theorem testString_eq :
    testString = [116, 104, 105, 115, 95, 105, 115, 95, 97, 95, 116, 101, 115, 116, 95,
      115, 116, 114, 105, 110, 103] := by
  decide

/-- C5 (hash strategy known answer). The default strategy on the bytes of
`"this_is_a_test_string"` with `m = 9600` and `k = 7` returns
`[3942, 6555, 9168, 2181, 4794, 7407, 420]`. -/
theorem MURMUR128MITZ64_known_answer :
    MURMUR128MITZ64.Indexes testString 9600 7 =
      some [3942, 6555, 9168, 2181, 4794, 7407, 420] := by
  decide!

/-- C7, as stated, fails for a large `k`: `make([]uint, k)` panics, as at `k = 2 ^ 62`. -/
theorem MURMUR128MITZ64_make_panics :
    ¬ MakeReturns (2 ^ 62) 8 ∧ MURMUR128MITZ64.Indexes [1, 2, 3] 64 (2 ^ 62) = none := by
  decide

/-- C7 (amended). For `0 < m < 2 ^ 64` and a `k` on which `make([]uint, k)` returns, the
default strategy returns, for every input, a sequence of exactly `k` indexes, each below
`m`, and on a filter with these parameters and the default strategy `Put` sets and
`MightContain` tests the bits at exactly these indexes; on any other `k` it panics. -/
theorem MURMUR128MITZ64_indexes_lt (data : List Nat) (m k : Nat) (h0 : 0 < m)
    (h : m < uintSize) :
    (MakeReturns k 8 →
      ∃ l, MURMUR128MITZ64.Indexes data m k = some l ∧ l.length = k ∧ (∀ i ∈ l, i < m) ∧
        ∀ bits : BitSet,
          Filter.Put ⟨m, k, bits, MURMUR128MITZ64⟩ data =
              (Filter.setAll bits l).map (fun b => ⟨m, k, b, MURMUR128MITZ64⟩) ∧
            Filter.MightContain ⟨m, k, bits, MURMUR128MITZ64⟩ data = Filter.testAll bits l) ∧
    (¬ MakeReturns k 8 → MURMUR128MITZ64.Indexes data m k = none) := by
  refine ⟨fun hk => ?_, fun hk => Indexes_of_not_makeReturns hk data m⟩
  obtain ⟨l, hl, hlen, hlt⟩ :=
    indexesLoop_spec h0 h (Murmur3.Sum128 data).2 k (toInt64 (Murmur3.Sum128 data).1)
  have hl2 : MURMUR128MITZ64.Indexes data m k = some l := by
    rw [Indexes_of_makeReturns hk]
    exact hl
  refine ⟨l, hl2, hlen, hlt, fun bits => ⟨?_, ?_⟩⟩
  · simp only [Filter.Put, MURMUR128MITZ64, hl2]
    cases Filter.setAll bits l <;> rfl
  · simp only [Filter.MightContain, MURMUR128MITZ64, hl2]

/-- Instance of the amended C7 at `m = 64`, `k = 5`. -/
theorem MURMUR128MITZ64_indexes_lt_witness :
    ∃ l, MURMUR128MITZ64.Indexes [1, 2, 3] 64 5 = some l ∧ l.length = 5 ∧
      (∀ i ∈ l, i < 64) ∧
      ∀ bits : BitSet,
        Filter.Put ⟨64, 5, bits, MURMUR128MITZ64⟩ [1, 2, 3] =
            (Filter.setAll bits l).map (fun b => ⟨64, 5, b, MURMUR128MITZ64⟩) ∧
          Filter.MightContain ⟨64, 5, bits, MURMUR128MITZ64⟩ [1, 2, 3] =
            Filter.testAll bits l :=
  (MURMUR128MITZ64_indexes_lt [1, 2, 3] 64 5 (by decide) (by decide)).1 (by decide)

/-- C8, as stated, fails where the product wraps: `pad(2 ^ 64 - 1)` is `0`, which is
below its argument. -/
theorem pad_wraps : pad (2 ^ 64 - 1) = 0 ∧ ¬ (pad (2 ^ 64 - 1) ≥ 2 ^ 64 - 1) := by
  decide

/-- C8 (amended). For every 64-bit `m`, `pad(m)` is a multiple of 64 and equals `m` when
`m` is one; for `m ≤ 2 ^ 64 - 64` it is the next multiple of 64 at or above `m`
(`pad(m) ≥ m` and `pad(m) - m < 64`); for a larger `m` the product wraps and `pad(m)` is
`0`. -/
theorem pad_spec (m : Nat) (h : m < uintSize) :
    pad m % 64 = 0 ∧ (m % 64 = 0 → pad m = m) ∧
      (m ≤ uintSize - 64 → m ≤ pad m ∧ pad m - m < 64) ∧
      (uintSize - 64 < m → pad m = 0) := by
  unfold pad uintSize at *
  simp only
  split <;> omega

/-- Instance of the amended C8 at `m = 100`. -/
theorem pad_spec_witness :
    pad 100 % 64 = 0 ∧ (100 % 64 = 0 → pad 100 = 100) ∧
      (100 ≤ uintSize - 64 → 100 ≤ pad 100 ∧ pad 100 - 100 < 64) ∧
      (uintSize - 64 < 100 → pad 100 = 0) :=
  pad_spec 100 (by decide)

/-- C10 (reconstruction). For a word sequence of fewer than `2 ^ 58` words (any slice
that fits a 64-bit address space), `From(words, k)` and `FromWithStrategy(words, k, s)`
have `M() = 64 * len(words)`, `K() = k` and `B() = words`; the strategy is the default
one for `From` and `s` for `FromWithStrategy`. -/
theorem From_spec (words : List Nat) (k : Nat) (s : Strategy) (h : words.length < 2 ^ 58) :
    ((From words k).M = 64 * words.length ∧ (From words k).K = k ∧
      (From words k).B = words ∧ (From words k).s = MURMUR128MITZ64) ∧
    ((FromWithStrategy words k s).M = 64 * words.length ∧
      (FromWithStrategy words k s).K = k ∧ (FromWithStrategy words k s).B = words ∧
      (FromWithStrategy words k s).s = s) := by
  have e : (words.length * 64) % uintSize = 64 * words.length := by
    unfold uintSize
    omega
  exact ⟨⟨e, rfl, rfl, rfl⟩, ⟨e, rfl, rfl, rfl⟩⟩

/-- Instance of C10 on three words, with a strategy that always panics. -/
theorem From_spec_witness :
    ((From [7, 0, 9] 4).M = 64 * [7, 0, 9].length ∧ (From [7, 0, 9] 4).K = 4 ∧
      (From [7, 0, 9] 4).B = [7, 0, 9] ∧ (From [7, 0, 9] 4).s = MURMUR128MITZ64) ∧
    ((FromWithStrategy [7, 0, 9] 4 ⟨fun _ _ _ => none⟩).M = 64 * [7, 0, 9].length ∧
      (FromWithStrategy [7, 0, 9] 4 ⟨fun _ _ _ => none⟩).K = 4 ∧
      (FromWithStrategy [7, 0, 9] 4 ⟨fun _ _ _ => none⟩).B = [7, 0, 9] ∧
      (FromWithStrategy [7, 0, 9] 4 ⟨fun _ _ _ => none⟩).s = ⟨fun _ _ _ => none⟩) :=
  From_spec [7, 0, 9] 4 ⟨fun _ _ _ => none⟩ (by decide)

/-- C3 (deserialization). When the payload decodes to `fJSON`, `UnmarshalJSON` returns
`nil` and leaves the receiver, whatever it held, with `M() = fJSON.M` and
`K() = fJSON.K` as given (also when `M` is not `64 * len(B)`), `B() = fJSON.B` and the
default strategy. -/
theorem UnmarshalJSON_ok {ε : Type} (unmarshal : List Nat → Except ε FilterJSON)
    (f : Filter) (data : List Nat) (fJSON : FilterJSON)
    (h : unmarshal data = Except.ok fJSON) :
    (Filter.UnmarshalJSON unmarshal f data).2 = none ∧
      (Filter.UnmarshalJSON unmarshal f data).1.M = fJSON.M ∧
      (Filter.UnmarshalJSON unmarshal f data).1.K = fJSON.K ∧
      (Filter.UnmarshalJSON unmarshal f data).1.B = fJSON.B ∧
      (Filter.UnmarshalJSON unmarshal f data).1.s = MURMUR128MITZ64 := by
  unfold Filter.UnmarshalJSON
  rw [h]
  exact ⟨rfl, rfl, rfl, rfl, rfl⟩

/-- Instance of C3: a payload decoding to `m = 100`, `k = 3` and one word, on a receiver
with a strategy that always panics. -/
theorem UnmarshalJSON_ok_witness :
    (Filter.UnmarshalJSON (fun _ => (Except.ok ⟨100, 3, [5]⟩ : Except String FilterJSON))
        (FromWithStrategy [] 0 ⟨fun _ _ _ => none⟩) [123, 125]).2 = none ∧
      (Filter.UnmarshalJSON (fun _ => (Except.ok ⟨100, 3, [5]⟩ : Except String FilterJSON))
        (FromWithStrategy [] 0 ⟨fun _ _ _ => none⟩) [123, 125]).1.M = 100 ∧
      (Filter.UnmarshalJSON (fun _ => (Except.ok ⟨100, 3, [5]⟩ : Except String FilterJSON))
        (FromWithStrategy [] 0 ⟨fun _ _ _ => none⟩) [123, 125]).1.K = 3 ∧
      (Filter.UnmarshalJSON (fun _ => (Except.ok ⟨100, 3, [5]⟩ : Except String FilterJSON))
        (FromWithStrategy [] 0 ⟨fun _ _ _ => none⟩) [123, 125]).1.B = [5] ∧
      (Filter.UnmarshalJSON (fun _ => (Except.ok ⟨100, 3, [5]⟩ : Except String FilterJSON))
        (FromWithStrategy [] 0 ⟨fun _ _ _ => none⟩) [123, 125]).1.s = MURMUR128MITZ64 :=
  UnmarshalJSON_ok (fun _ => (Except.ok ⟨100, 3, [5]⟩ : Except String FilterJSON))
    (FromWithStrategy [] 0 ⟨fun _ _ _ => none⟩) [123, 125] ⟨100, 3, [5]⟩ rfl

/-- C4 (decode error). When decoding the payload fails with `err`, `UnmarshalJSON`
returns `err` and the receiver is unchanged. -/
theorem UnmarshalJSON_error {ε : Type} (unmarshal : List Nat → Except ε FilterJSON)
    (f : Filter) (data : List Nat) (err : ε) (h : unmarshal data = Except.error err) :
    Filter.UnmarshalJSON unmarshal f data = (f, some err) := by
  unfold Filter.UnmarshalJSON
  rw [h]

/-- Instance of C4: a decoder that fails on the empty payload. -/
theorem UnmarshalJSON_error_witness :
    Filter.UnmarshalJSON (fun _ => (Except.error "unexpected end of JSON input" :
        Except String FilterJSON)) (From [7] 2) [] =
      (From [7] 2, some "unexpected end of JSON input") :=
  UnmarshalJSON_error (fun _ => (Except.error "unexpected end of JSON input" :
    Except String FilterJSON)) (From [7] 2) [] "unexpected end of JSON input" rfl

/-- C2, as stated, fails where the bit set cannot be allocated: `NewWithFPP(1, 0)` has
`M() = 2 ^ 63` and, `bitset.New` having recovered from the panic of `make`, an empty
`B()`, so that `From(f.B(), f.K())` has `M() = 0`. -/
theorem reconstruction_unallocated :
    (NewWithFPP 1 (F64.ofRatio 0 1)).M = 2 ^ 63 ∧ (NewWithFPP 1 (F64.ofRatio 0 1)).B = [] ∧
      (From (NewWithFPP 1 (F64.ofRatio 0 1)).B (NewWithFPP 1 (F64.ofRatio 0 1)).K).M = 0 := by
  decide!

/-- C2 (amended). Whenever `NewWithFPP(n, p)` has `M() > 0` and `make` returns on the
words of its bit set, for every filter `f` that a sequence of `Put` calls on it leaves,
`g = From(f.B(), f.K())` has `g.M() = f.M()`, `g.K() = f.K()` and answers `MightContain`
as `f` does on every input; and every such sequence returns when `make` returns on `k`
indexes. -/
theorem reconstruction_round_trip (n : Nat) (p : F64) (ds : List (List Nat))
    (h : 0 < (NewWithFPP n p).M)
    (ha : MakeReturns (BitSet.wordsNeeded (EstimateParameters n p).1) 8) :
    (∀ f, (NewWithFPP n p).putAll ds = some f →
      (From f.B f.K).M = f.M ∧ (From f.B f.K).K = f.K ∧
        ∀ d, (From f.B f.K).MightContain d = f.MightContain d) ∧
    (MakeReturns (NewWithFPP n p).K 8 → ∃ f, (NewWithFPP n p).putAll ds = some f) := by
  have hp0 : (NewWithFPP n p).Padded := padded_of_estimate ha h
  by_cases hk : MakeReturns (NewWithFPP n p).k 8
  · have hs0 : (NewWithFPP n p).StrategyBelow :=
      MURMUR_below rfl hp0.2.2.1 (lt_of_le_of_lt hp0.2.1 (by decide)) hk
    obtain ⟨f1, hf1, _, _, e3, hp⟩ := Filter.putAll_padded ds hp0 hs0
    refine ⟨fun f hf => ?_, fun _ => ⟨f1, hf1⟩⟩
    rw [hf1] at hf
    cases hf
    exact Filter.From_B_of_padded hp e3
  · refine ⟨fun f hf => ?_, fun hk2 => absurd hk2 hk⟩
    cases ds with
    | nil =>
      cases hf
      exact Filter.From_B_of_padded hp0 rfl
    | cons d ds =>
      rw [Filter.putAll_cons_none ds (Filter.Put_none_of_not_makeReturns rfl hk d)] at hf
      cases hf

/-- Instance of the amended C2 at `NewWithFPP(100, 0.01)` with two insertions. -/
theorem reconstruction_round_trip_witness :
    (∀ f, (NewWithFPP 100 (F64.ofRatio 1 100)).putAll [testString, [1, 2]] = some f →
      (From f.B f.K).M = f.M ∧ (From f.B f.K).K = f.K ∧
        ∀ d, (From f.B f.K).MightContain d = f.MightContain d) ∧
    (MakeReturns (NewWithFPP 100 (F64.ofRatio 1 100)).K 8 →
      ∃ f, (NewWithFPP 100 (F64.ofRatio 1 100)).putAll [testString, [1, 2]] = some f) :=
  reconstruction_round_trip 100 (F64.ofRatio 1 100) [testString, [1, 2]] (by decide!)
    (by decide!)

/-- C6 (parameter estimation known answers). `NewWithFPP(1000, 0.01)` has `M() = 9600`
and `K() = 7`, `NewWithFPP(10000, 0.03)` has `M() = 73024` and `K() = 5`, and
`NewWithFPP(1024, 0.01)` has `M() = 9856` and `K() = 7`. -/
theorem NewWithFPP_known_answers :
    ((NewWithFPP 1000 (F64.ofRatio 1 100)).M = 9600 ∧
      (NewWithFPP 1000 (F64.ofRatio 1 100)).K = 7) ∧
    ((NewWithFPP 10000 (F64.ofRatio 3 100)).M = 73024 ∧
      (NewWithFPP 10000 (F64.ofRatio 3 100)).K = 5) ∧
    ((NewWithFPP 1024 (F64.ofRatio 1 100)).M = 9856 ∧
      (NewWithFPP 1024 (F64.ofRatio 1 100)).K = 7) := by
  decide!

/-- C11, as stated, fails: `From` on no words with `k = 0` has `M() = 0` and `K() = 0`. -/
theorem From_empty :
    (From [] 0).M = 0 ∧ (From [] 0).K = 0 ∧ ¬ (64 ≤ (From [] 0).M) ∧ ¬ (1 ≤ (From [] 0).K) := by
  decide

/-- C11 (amended). For a word sequence of fewer than `2 ^ 58` words, the filters of
`From(words, k)` and `FromWithStrategy(words, k, s)` have `M() ≥ 64` exactly when `words`
is not empty, and `K() ≥ 1` exactly when the `k` passed is at least `1`. -/
theorem From_invariants (words : List Nat) (k : Nat) (s : Strategy)
    (h : words.length < 2 ^ 58) :
    ((64 ≤ (From words k).M ↔ words ≠ []) ∧ (1 ≤ (From words k).K ↔ 1 ≤ k)) ∧
    ((64 ≤ (FromWithStrategy words k s).M ↔ words ≠ []) ∧
      (1 ≤ (FromWithStrategy words k s).K ↔ 1 ≤ k)) := by
  have e : (words.length * 64) % uintSize = 64 * words.length := by
    unfold uintSize
    omega
  have hM : (From words k).M = 64 * words.length := e
  have hM2 : (FromWithStrategy words k s).M = 64 * words.length := e
  have hne : words ≠ [] ↔ 1 ≤ words.length := by
    rw [Nat.one_le_iff_ne_zero, ne_eq, ne_eq, List.length_eq_zero]
  rw [hM, hM2, hne]
  exact ⟨⟨by omega, Iff.rfl⟩, ⟨by omega, Iff.rfl⟩⟩

/-- Instance of the amended C11 on one word with `k = 0`. -/
theorem From_invariants_witness :
    ((64 ≤ (From [5] 0).M ↔ [5] ≠ []) ∧ (1 ≤ (From [5] 0).K ↔ 1 ≤ 0)) ∧
    ((64 ≤ (FromWithStrategy [5] 0 MURMUR128MITZ64).M ↔ [5] ≠ []) ∧
      (1 ≤ (FromWithStrategy [5] 0 MURMUR128MITZ64).K ↔ 1 ≤ 0)) :=
  From_invariants [5] 0 MURMUR128MITZ64 (by decide)

/-- C15 (double hashing closed form). For `0 < m < 2 ^ 63` and `i < k`, element `i` of
`MURMUR128MITZ64.Indexes(data, m, k)` is `((h1 + i * h2) mod 2 ^ 63) mod m`, where
`(h1, h2)` is `murmur3.Sum128(data)`: so it is of every result of the call, and the call
returns whenever `make([]uint, k)` does. -/
theorem MURMUR128MITZ64_closed_form (data : List Nat) (m k i : Nat) (h0 : 0 < m)
    (h : m < 2 ^ 63) (hi : i < k) :
    (∀ l, MURMUR128MITZ64.Indexes data m k = some l →
      l[i]? = some ((((Murmur3.Sum128 data).1 + i * (Murmur3.Sum128 data).2) % 2 ^ 63) % m)) ∧
    (MakeReturns k 8 →
      ∃ l, MURMUR128MITZ64.Indexes data m k = some l ∧
        l[i]? =
          some ((((Murmur3.Sum128 data).1 + i * (Murmur3.Sum128 data).2) % 2 ^ 63) % m)) := by
  obtain ⟨l, hl, hget⟩ := indexesLoop_getElem h0 h (Murmur3.Sum128 data).2 k
    (toInt64 (Murmur3.Sum128 data).1) i hi
  have hval : l[i]? =
      some ((((Murmur3.Sum128 data).1 + i * (Murmur3.Sum128 data).2) % 2 ^ 63) % m) := by
    rw [hget, toUint64_toInt64]
    congr 2
    omega
  constructor
  · intro l2 hl2
    have hk := (Indexes_some h0 (lt_trans h (by decide)) hl2).1
    rw [Indexes_of_makeReturns hk, hl] at hl2
    cases hl2
    exact hval
  · intro hk
    refine ⟨l, ?_, hval⟩
    rw [Indexes_of_makeReturns hk]
    exact hl

/-- Instance of C15 at `m = 9600`, `k = 7`, element `3`. -/
theorem MURMUR128MITZ64_closed_form_witness :
    ∃ l, MURMUR128MITZ64.Indexes [1, 2] 9600 7 = some l ∧
      l[3]? = some ((((Murmur3.Sum128 [1, 2]).1 + 3 * (Murmur3.Sum128 [1, 2]).2) % 2 ^ 63)
        % 9600) :=
  (MURMUR128MITZ64_closed_form [1, 2] 9600 7 3 (by decide) (by decide) (by decide)).2
    (by decide)

/-- C17, as stated, fails on a negative accumulator: for `combined = -1` the mask gives
`2 ^ 63 - 1`, not `1`. -/
theorem mask_not_abs : maskInt64 (-1) = 2 ^ 63 - 1 ∧ maskInt64 (-1) ≠ |(-1 : Int)| := by
  decide

/-- C17 (amended). For every `int64` value `combined`, the mask gives `combined` reduced
modulo `2 ^ 63`: `combined` itself, which is `|combined|`, when it is not negative, and
`combined + 2 ^ 63` when it is negative; this is `|combined|` only for a non-negative
`combined` and for `-2 ^ 62`. -/
theorem maskInt64_spec (c : Int) (h1 : -(2 ^ 63) ≤ c) (h2 : c < 2 ^ 63) :
    maskInt64 c = c % 2 ^ 63 ∧ (0 ≤ c → maskInt64 c = |c|) ∧
      (c < 0 → maskInt64 c = c + 2 ^ 63) ∧
      (maskInt64 c = |c| ↔ 0 ≤ c ∨ c = -(2 ^ 62)) := by
  have e : maskInt64 c = c % 2 ^ 63 := by
    rw [maskInt64_eq, and_signMask]
    unfold toUint64
    omega
  rw [e]
  rcases abs_cases c with ⟨ha, _⟩ | ⟨ha, _⟩ <;> rw [ha] <;> omega

/-- Instance of the amended C17 at `combined = -5`. -/
theorem maskInt64_spec_witness :
    maskInt64 (-5) = (-5) % 2 ^ 63 ∧ ((0 : Int) ≤ -5 → maskInt64 (-5) = |(-5 : Int)|) ∧
      ((-5 : Int) < 0 → maskInt64 (-5) = -5 + 2 ^ 63) ∧
      (maskInt64 (-5) = |(-5 : Int)| ↔ (0 : Int) ≤ -5 ∨ (-5 : Int) = -(2 ^ 62)) :=
  maskInt64_spec (-5) (by decide) (by decide)

/-- C12 (clamp of `n`). `EstimateParameters(0, p)` is `EstimateParameters(1, p)`, so
`NewWithFPP(0, p)` has the `M()` and `K()` of `NewWithFPP(1, p)`; and for every `n` the
clamped `n` is at least `1` and its `float64`, the divisor in the estimate of `k`, is not
zero. -/
theorem EstimateParameters_clamp (n : Nat) (p : F64) :
    EstimateParameters 0 p = EstimateParameters 1 p ∧
      (NewWithFPP 0 p).M = (NewWithFPP 1 p).M ∧ (NewWithFPP 0 p).K = (NewWithFPP 1 p).K ∧
      1 ≤ max n 1 ∧
      F64.eq (F64.ofUint (max n 1)) (F64.finite false 0 (-1074)) = false := by
  have h1 : 1 ≤ max n 1 := by
    unfold max
    split <;> omega
  exact ⟨rfl, rfl, rfl, h1, F64.eq_zero_of_ofUint h1⟩

/-- C16, as stated, fails: for `n = 1` and `p = 0.5` the code returns `m = 1`, the integer
part of the quotient, where the ceiling of `-n * ln(p) / (ln 2) ^ 2` is `2`. -/
theorem estimate_not_ceil :
    F64.ofRatio 1 2 = F64.finite false (2 ^ 52) (-53) ∧
      (EstimateParameters 1 (F64.ofRatio 1 2)).1 = 1 ∧
      ⌈-(1 : ℝ) * Real.log (1 / 2) / (Real.log 2) ^ 2⌉ = 2 := by
  refine ⟨by decide!, by decide!, ?_⟩
  have h1 := Real.log_two_gt_d9
  have h2 := Real.log_two_lt_d9
  have hpos : 0 < Real.log 2 := by linarith
  have e : -(1 : ℝ) * Real.log (1 / 2) / (Real.log 2) ^ 2 = 1 / Real.log 2 := by
    rw [one_div, Real.log_inv]
    field_simp
    ring
  rw [e, Int.ceil_eq_iff]
  constructor
  · rw [lt_div_iff₀ hpos]
    norm_num
    linarith
  · rw [div_le_iff₀ hpos]
    norm_num
    linarith

/-- C16 (amended). Whenever the `float64` quotient `-n * ln(p) / (ln 2) ^ 2` that
`EstimateParameters(n, p)` computes is finite, not negative and below `2 ^ 63`, the `m`
returned is its integer part: the quotient `mant * 2 ^ e` is truncated, not rounded up. -/
theorem estimate_is_truncation (n : Nat) (p : F64) (mant : Nat) (e : Int)
    (hq : estimateQuotient n p = F64.finite false mant e)
    (hlt : F64.lt (F64.finite false mant e) (F64.finite false (2 ^ 52) 11) = true) :
    (EstimateParameters n p).1 = mant * 2 ^ (e + 1074).toNat / 2 ^ 1074 := by
  have h : (EstimateParameters n p).1 = F64.toUint (estimateQuotient n p) := rfl
  rw [h, hq]
  exact F64.toUint_finite hlt

/-- Instance of the amended C16 at `n = 1000`, `p = 0.01`: the quotient is
`5269441569413629 * 2 ^ (-39)`, about `9585.06`, and `m` is `9585`. -/
theorem estimate_is_truncation_witness :
    (EstimateParameters 1000 (F64.ofRatio 1 100)).1 =
      5269441569413629 * 2 ^ ((-39 : Int) + 1074).toNat / 2 ^ 1074 :=
  estimate_is_truncation 1000 (F64.ofRatio 1 100) 5269441569413629 (-39) (by decide!)
    (by decide!)

/-- C13, as stated, fails where the bit set cannot be allocated: `NewWithFPP(1, 0)` has
`M() = 2 ^ 63`, so `M() / 64 = 2 ^ 57`, and an empty `B()`. -/
theorem B_length_unallocated :
    (NewWithFPP 1 (F64.ofRatio 0 1)).M / 64 = 2 ^ 57 ∧
      (NewWithFPP 1 (F64.ofRatio 0 1)).B.length = 0 := by
  decide!

/-- C13 (amended). For a filter of `NewWithStrategy(n, p, s)` (so of `NewWithFPP` and
`New`) on whose words `make` returns, and for a filter of `FromWithStrategy(words, k, s)`
(so of `From`) on fewer than `2 ^ 58` words, with a strategy that returns indexes below
`m`: every sequence of `Put` calls returns, and the words of `B()` are then exactly
`M() / 64`. Where `make` panics on the words, `B()` of the new filter is empty. -/
theorem B_length (n : Nat) (p : F64) (s : Strategy) (words : List Nat) (k : Nat)
    (ds : List (List Nat)) :
    (MakeReturns (BitSet.wordsNeeded (EstimateParameters n p).1) 8 →
      (NewWithStrategy n p s).StrategyBelow →
      ∃ f, (NewWithStrategy n p s).putAll ds = some f ∧ f.B.length = f.M / 64) ∧
    (¬ MakeReturns (BitSet.wordsNeeded (EstimateParameters n p).1) 8 →
      (NewWithStrategy n p s).B = []) ∧
    (words.length < 2 ^ 58 → (FromWithStrategy words k s).StrategyBelow →
      ∃ f, (FromWithStrategy words k s).putAll ds = some f ∧ f.B.length = f.M / 64) ∧
    NewWithFPP n p = NewWithStrategy n p MURMUR128MITZ64 ∧
    New n = NewWithStrategy n defaultFPP MURMUR128MITZ64 ∧
    From words k = FromWithStrategy words k MURMUR128MITZ64 := by
  have key : ∀ f : Filter, f.Aligned → f.StrategyBelow →
      ∃ f1, f.putAll ds = some f1 ∧ f1.B.length = f1.M / 64 := by
    intro f ha hs
    obtain ⟨f1, h1, _, _, _, ha1⟩ := Filter.putAll_aligned ds ha hs
    refine ⟨f1, h1, ?_⟩
    show f1.bits.set.length = f1.m / 64
    rw [ha1.1]
    omega
  refine ⟨fun h hs => key _ (aligned_of_estimate _ s h) hs, fun h => ?_,
    fun h hs => key _ (aligned_FromWithStrategy words k s h) hs, rfl, rfl, rfl⟩
  show (BitSet.New (EstimateParameters n p).1).set = []
  rw [BitSet.New_of_not_makeReturns h]

/-- Instance of the amended C13: `NewWithFPP(100, 0.01)` and one zero word, each with
two insertions. -/
theorem B_length_witness :
    (∃ f, (NewWithStrategy 100 (F64.ofRatio 1 100) MURMUR128MITZ64).putAll [[1], [2]] = some f ∧
      f.B.length = f.M / 64) ∧
    (∃ f, (FromWithStrategy [0] 3 MURMUR128MITZ64).putAll [[1], [2]] = some f ∧
      f.B.length = f.M / 64) :=
  ⟨(B_length 100 (F64.ofRatio 1 100) MURMUR128MITZ64 [0] 3 [[1], [2]]).1 (by decide!)
      (MURMUR_below rfl (by decide!) (by decide!) (by decide!)),
    (B_length 100 (F64.ofRatio 1 100) MURMUR128MITZ64 [0] 3 [[1], [2]]).2.2.1 (by decide)
      (MURMUR_below rfl (by decide) (by decide) (by decide))⟩

/-- C19, as stated, fails for a `k` on which `make([]uint, k)` panics: `NewWithFPP(1, 0)`
has `M() = 2 ^ 63` and `K() = 6393154322601327616`, and `MightContain` on it panics. -/
theorem new_filter_panics :
    0 < (NewWithFPP 1 (F64.ofRatio 0 1)).M ∧ 1 ≤ (NewWithFPP 1 (F64.ofRatio 0 1)).K ∧
      (NewWithFPP 1 (F64.ofRatio 0 1)).K = 6393154322601327616 ∧
      (NewWithFPP 1 (F64.ofRatio 0 1)).MightContain testString = none := by
  decide!

/-- C19 (amended). Whenever `NewWithFPP(n, p)` has `M() > 0` and `make` returns on its
`k` indexes, `MightContain` on the new filter returns `false` for every input (`K() ≥ 1`
holds of every new filter); where `make` panics on `k` indexes, `MightContain`
panics. -/
theorem new_filter_empty (n : Nat) (p : F64) (d : List Nat) (h : 0 < (NewWithFPP n p).M) :
    (MakeReturns (NewWithFPP n p).K 8 → (NewWithFPP n p).MightContain d = some false) ∧
    (¬ MakeReturns (NewWithFPP n p).K 8 → (NewWithFPP n p).MightContain d = none) := by
  refine ⟨fun hk => ?_, fun hk => Filter.MightContain_none_of_not_makeReturns rfl hk d⟩
  have hlt := EstimateParameters_lt n p
  have hk1 : 1 ≤ (EstimateParameters n p).2 := F64.toUint_Max_one _
  have hM : (NewWithFPP n p).m < uintSize := lt_of_le_of_lt (pad_le hlt) (by decide)
  obtain ⟨l, hl, hlen, _⟩ := indexesLoop_spec h hM (Murmur3.Sum128 d).2
    (EstimateParameters n p).2 (toInt64 (Murmur3.Sum128 d).1)
  have hidx : (NewWithFPP n p).s.Indexes d (NewWithFPP n p).m (NewWithFPP n p).k = some l := by
    have hk2 : MakeReturns (NewWithFPP n p).k 8 := hk
    show MURMUR128MITZ64.Indexes d (NewWithFPP n p).m (NewWithFPP n p).k = some l
    rw [Indexes_of_makeReturns hk2]
    exact hl
  unfold Filter.MightContain
  rw [hidx]
  cases l with
  | nil => simp at hlen; omega
  | cons i rest =>
    have ht : (NewWithFPP n p).bits.Test i = some false := by
      show (BitSet.New (EstimateParameters n p).1).Test i = some false
      rw [BitSet.Test_tight (BitSet.New_tight _), BitSet.wordBit_New]
    simp [Filter.testAll, ht]

/-- Instance of the amended C19 at `NewWithFPP(100, 0.01)`. -/
theorem new_filter_empty_witness :
    (NewWithFPP 100 (F64.ofRatio 1 100)).MightContain testString = some false :=
  (new_filter_empty 100 (F64.ofRatio 1 100) testString (by decide!)).1 (by decide!)

end Bloom
